import Mathlib

/-!
Verification development for the job-scraper ingestion pipeline.

The definitions below are a shallow embedding of the Python sources:
  - src/main.py             (JobScraperOrchestrator: parse_date, is_published_today,
                             is_relevant_job, process_job_list)
  - src/utils/description_fetcher.py (DescriptionFetcher: fetch, _extract_content,
                             _clean_markdown)
  - src/scrapers/base_scraper.py (BaseScraper.normalize_html heading pass)

Machine datetimes are modelled as records of Nat wall-clock fields plus an
optional timezone offset in seconds (none = naive).  Python strings are Lean
String or List Char; the whitespace set is the ASCII part of the Python
whitespace class (unicode spaces are elided, none of the claims depend on
them).  Library behaviour that the code calls into (datetime.strptime,
re.sub, BeautifulSoup traversal, markdownify) is modelled from the documented
semantics of those libraries, restricted to the inputs the code can pass.
-/

/-- ASCII whitespace as recognised by the Python str.strip, str.isspace and
the regex class backslash-s (space, tab, newline, carriage return, vertical
tab, form feed). -/
def pyWs (c : Char) : Bool :=
  c = ' ' || c = '\t' || c = '\n' || c = '\r' || c = '\x0b' || c = '\x0c'

/-- Python str.strip on a character list: drop whitespace from both ends. -/
def stripC (l : List Char) : List Char :=
  (((l.dropWhile pyWs).reverse.dropWhile pyWs).reverse)

/-- Python str.strip on a String. -/
def pyStrip (s : String) : String := String.mk (stripC s.toList)

/-- Python str.lower, restricted to ASCII letters. -/
def lowerStr (s : String) : String := String.mk (s.toList.map Char.toLower)

/-- Prefix test on character lists. -/
def isPrefixC : List Char → List Char → Bool
  | [], _ => true
  | _ :: _, [] => false
  | a :: as, b :: bs => a = b && isPrefixC as bs

/-- Containment test for a pattern inside a character list, the semantics of
the Python expression needle in haystack. -/
def hasSubC (needle : List Char) : List Char → Bool
  | [] => isPrefixC needle []
  | c :: rest => isPrefixC needle (c :: rest) || hasSubC needle rest

/-- Python needle in haystack on Strings. -/
def pyContains (hay needle : String) : Bool := hasSubC needle.toList hay.toList

/-- Zero-padded decimal rendering, for strftime of date fields. -/
def natPad (width n : Nat) : String :=
  let digits := toString n
  String.mk (List.replicate (width - digits.length) '0') ++ digits

/-- Wall-clock datetime: the fields of a Python datetime (microseconds
elided, the sources never set them), plus the utcoffset of its tzinfo in
seconds (none = naive datetime). -/
structure DT where
  year : Nat
  month : Nat
  day : Nat
  hour : Nat
  minute : Nat
  second : Nat
  tz : Option Int
  deriving DecidableEq, Repr

/-- Days from the civil epoch 1970-01-01 (standard civil-from-days inverse,
matching the proleptic Gregorian calendar used by Python datetime). -/
def daysFromCivil (y m d : Int) : Int :=
  let y1 : Int := if m ≤ 2 then y - 1 else y
  let era : Int := Int.fdiv y1 400
  let yoe : Int := y1 - era * 400
  let mp : Int := if m > 2 then m - 3 else m + 9
  let doy : Int := (153 * mp + 2) / 5 + d - 1
  let doe : Int := yoe * 365 + yoe / 4 - yoe / 100 + doy
  era * 146097 + doe - 719468

/-- Wall-clock seconds since the epoch, ignoring the tz field (Python
subtraction of two naive datetimes works on exactly these fields). -/
def DT.toSeconds (t : DT) : Int :=
  daysFromCivil t.year t.month t.day * 86400 + t.hour * 3600 + t.minute * 60 + t.second

/-- Python timedelta.days of (a - b): floor division of the signed second
difference, as timedelta normalises with 0 ≤ seconds < 86400. -/
def tdDays (a b : DT) : Int := Int.fdiv (a.toSeconds - b.toSeconds) 86400

/-- The wall clocks read by the orchestrator during one decision:
datetime.now() / date.today() (local, naive) and datetime.now(pytz.utc)
(UTC, aware).  Both are inputs of the embedding. -/
structure Clock where
  localWall : DT
  utcWall : DT
  deriving DecidableEq, Repr

/-- Model of datetime.now(): the local wall clock, naive. -/
def Clock.now (c : Clock) : DT := { c.localWall with tz := none }

/-- Model of datetime.now(pytz.utc): the UTC wall clock, tz-aware with
offset zero. -/
def Clock.nowUtc (c : Clock) : DT := { c.utcWall with tz := some 0 }

/-- Model of date.today().strftime of the YYYY-MM-DD pattern. -/
def Clock.todayStr (c : Clock) : String :=
  natPad 4 c.localWall.year ++ "-" ++ natPad 2 c.localWall.month ++ "-" ++ natPad 2 c.localWall.day

/-- The union of shapes the raw published_at field can hold when it reaches
parse_date: null, a string, a datetime instance, or a date instance. -/
inductive PubDate where
  | pnone
  | pstr (s : String)
  | pdt (d : DT)
  | pdate (y m d : Nat)
  deriving DecidableEq, Repr

/-! ### strptime model

src/main.py line 158-166 lists seven format strings tried in order.  The
directives below model the regexes CPython _strptime builds for them: the
whole match is case-insensitive, a literal whitespace in the format matches
one or more whitespace characters, numeric directives accept the documented
digit patterns, and the full input must be consumed.  Weekday and month
names accept English full names and abbreviations (other locales elided).
The z directive accepts sign HHMM, sign HH:MM or the letter Z and produces
an offset; the named-timezone directive accepts UTC and GMT (local timezone
names elided) and produces no offset, exactly as datetime.strptime attaches
a tzinfo only for the numeric-offset directive. -/
def digitVal (c : Char) : Nat := c.toNat - 48

/-- Four-digit year directive. -/
def pTokY : List Char → Option (Nat × List Char)
  | a :: b :: c :: d :: rest =>
      if a.isDigit && b.isDigit && c.isDigit && d.isDigit then
        some (digitVal a * 1000 + digitVal b * 100 + digitVal c * 10 + digitVal d, rest)
      else none
  | _ => none

/-- Month directive: alternation 1[0-2] then 0[1-9] then single 1-9. -/
def pTokm : List Char → Option (Nat × List Char)
  | c1 :: c2 :: rest =>
      if c1 = '1' && ('0' ≤ c2 && c2 ≤ '2') then some (10 + digitVal c2, rest)
      else if c1 = '0' && ('1' ≤ c2 && c2 ≤ '9') then some (digitVal c2, rest)
      else if '1' ≤ c1 && c1 ≤ '9' then some (digitVal c1, c2 :: rest)
      else none
  | [c1] => if '1' ≤ c1 && c1 ≤ '9' then some (digitVal c1, []) else none
  | [] => none

/-- Day directive: alternation 3[01] then [12]d then 0[1-9] then 1-9. -/
def pTokd : List Char → Option (Nat × List Char)
  | c1 :: c2 :: rest =>
      if c1 = '3' && (c2 = '0' || c2 = '1') then some (30 + digitVal c2, rest)
      else if (c1 = '1' || c1 = '2') && c2.isDigit then some (digitVal c1 * 10 + digitVal c2, rest)
      else if c1 = '0' && ('1' ≤ c2 && c2 ≤ '9') then some (digitVal c2, rest)
      else if '1' ≤ c1 && c1 ≤ '9' then some (digitVal c1, c2 :: rest)
      else none
  | [c1] => if '1' ≤ c1 && c1 ≤ '9' then some (digitVal c1, []) else none
  | [] => none

/-- Hour directive: alternation 2[0-3] then [01]d then single digit. -/
def pTokH : List Char → Option (Nat × List Char)
  | c1 :: c2 :: rest =>
      if c1 = '2' && ('0' ≤ c2 && c2 ≤ '3') then some (20 + digitVal c2, rest)
      else if (c1 = '0' || c1 = '1') && c2.isDigit then some (digitVal c1 * 10 + digitVal c2, rest)
      else if c1.isDigit then some (digitVal c1, c2 :: rest)
      else none
  | [c1] => if c1.isDigit then some (digitVal c1, []) else none
  | [] => none

/-- Minute directive: alternation [0-5]d then single digit. -/
def pTokM : List Char → Option (Nat × List Char)
  | c1 :: c2 :: rest =>
      if ('0' ≤ c1 && c1 ≤ '5') && c2.isDigit then some (digitVal c1 * 10 + digitVal c2, rest)
      else if c1.isDigit then some (digitVal c1, c2 :: rest)
      else none
  | [c1] => if c1.isDigit then some (digitVal c1, []) else none
  | [] => none

/-- Second directive: alternation 6[01] then [0-5]d then single digit
(60 and 61 are leap seconds the datetime constructor later rejects). -/
def pTokS : List Char → Option (Nat × List Char)
  | c1 :: c2 :: rest =>
      if c1 = '6' && (c2 = '0' || c2 = '1') then some (60 + digitVal c2, rest)
      else if ('0' ≤ c1 && c1 ≤ '5') && c2.isDigit then some (digitVal c1 * 10 + digitVal c2, rest)
      else if c1.isDigit then some (digitVal c1, c2 :: rest)
      else none
  | [c1] => if c1.isDigit then some (digitVal c1, []) else none
  | [] => none

/-- Case-insensitive name-prefix match: if the lowered input starts with the
name, drop it. -/
def matchName (name : String) (l : List Char) : Option (List Char) :=
  if isPrefixC name.toList (l.map Char.toLower) then some (l.drop name.length) else none

/-- First name of the list that prefixes the input (longest names listed
first, as the strptime regex alternation is length-sorted). -/
def matchFirstName : List (String × Nat) → List Char → Option (Nat × List Char)
  | [], _ => none
  | (nm, v) :: rest, l =>
      match matchName nm l with
      | some l2 => some (v, l2)
      | none => matchFirstName rest l

def weekdayNames : List (String × Nat) :=
  [("monday", 0), ("tuesday", 1), ("wednesday", 2), ("thursday", 3), ("friday", 4),
   ("saturday", 5), ("sunday", 6),
   ("mon", 0), ("tue", 1), ("wed", 2), ("thu", 3), ("fri", 4), ("sat", 5), ("sun", 6)]

def monthNames : List (String × Nat) :=
  [("january", 1), ("february", 2), ("march", 3), ("april", 4), ("june", 6),
   ("july", 7), ("august", 8), ("september", 9), ("october", 10), ("november", 11),
   ("december", 12),
   ("jan", 1), ("feb", 2), ("mar", 3), ("apr", 4), ("may", 5), ("jun", 6),
   ("jul", 7), ("aug", 8), ("sep", 9), ("oct", 10), ("nov", 11), ("dec", 12)]

/-- Numeric timezone-offset directive: sign HHMM, sign HH:MM, or Z.  The
result is an offset in seconds; the timezone constructor rejects offsets of
a whole day or more. -/
def pTokz : List Char → Option (Int × List Char)
  | 'Z' :: rest => some (0, rest)
  | sgn :: h1 :: h2 :: rest =>
      if (sgn = '+' || sgn = '-') && h1.isDigit && h2.isDigit then
        let hh : Int := (digitVal h1 * 10 + digitVal h2 : Nat)
        let finish : Int → List Char → Option (Int × List Char) := fun mins tail =>
          let off : Int := hh * 3600 + mins * 60
          let off := if sgn = '-' then -off else off
          if off < 86400 ∧ -86400 < off then some (off, tail) else none
        match rest with
        | ':' :: m1 :: m2 :: tail =>
            if m1.isDigit && m2.isDigit then
              finish ((digitVal m1 * 10 + digitVal m2 : Nat)) tail
            else none
        | m1 :: m2 :: tail =>
            if m1.isDigit && m2.isDigit then
              finish ((digitVal m1 * 10 + digitVal m2 : Nat)) tail
            else none
        | _ => none
      else none
  | _ => none

/-- Named-timezone directive: UTC or GMT, case-insensitive, setting no
offset. -/
def pTokZname (l : List Char) : Option (List Char) :=
  match matchName "utc" l with
  | some l2 => some l2
  | none => matchName "gmt" l

/-- Directives of the seven formats of parse_date. -/
inductive FmtTok where
  | lit (c : Char)
  | ws
  | year
  | monthNum
  | dayNum
  | hourNum
  | minuteNum
  | secondNum
  | weekday
  | monthName
  | offset
  | zoneName
  deriving DecidableEq, Repr

/-- Partial parse state of one strptime run; strptime defaults the date to
1900-01-01 and the time to midnight. -/
structure ParseAcc where
  y : Nat := 1900
  mo : Nat := 1
  d : Nat := 1
  h : Nat := 0
  mi : Nat := 0
  s : Nat := 0
  off : Option Int := none
  deriving DecidableEq, Repr

/-- Run a format over the input; the whole input must be consumed.  A
literal character matches case-insensitively; a whitespace in the format
matches one or more whitespace characters. -/
def runFmt : List FmtTok → List Char → ParseAcc → Option ParseAcc
  | [], [], acc => some acc
  | [], _ :: _, _ => none
  | .lit c :: toks, x :: rest, acc =>
      if x.toLower = c.toLower then runFmt toks rest acc else none
  | .lit _ :: _, [], _ => none
  | .ws :: toks, x :: rest, acc =>
      if pyWs x then runFmt toks (rest.dropWhile pyWs) acc else none
  | .ws :: _, [], _ => none
  | .year :: toks, l, acc =>
      match pTokY l with
      | some (v, rest) => runFmt toks rest { acc with y := v }
      | none => none
  | .monthNum :: toks, l, acc =>
      match pTokm l with
      | some (v, rest) => runFmt toks rest { acc with mo := v }
      | none => none
  | .dayNum :: toks, l, acc =>
      match pTokd l with
      | some (v, rest) => runFmt toks rest { acc with d := v }
      | none => none
  | .hourNum :: toks, l, acc =>
      match pTokH l with
      | some (v, rest) => runFmt toks rest { acc with h := v }
      | none => none
  | .minuteNum :: toks, l, acc =>
      match pTokM l with
      | some (v, rest) => runFmt toks rest { acc with mi := v }
      | none => none
  | .secondNum :: toks, l, acc =>
      match pTokS l with
      | some (v, rest) => runFmt toks rest { acc with s := v }
      | none => none
  | .weekday :: toks, l, acc =>
      match matchFirstName weekdayNames l with
      | some (_, rest) => runFmt toks rest acc
      | none => none
  | .monthName :: toks, l, acc =>
      match matchFirstName monthNames l with
      | some (v, rest) => runFmt toks rest { acc with mo := v }
      | none => none
  | .offset :: toks, l, acc =>
      match pTokz l with
      | some (v, rest) => runFmt toks rest { acc with off := some v }
      | none => none
  | .zoneName :: toks, l, acc =>
      match pTokZname l with
      | some rest => runFmt toks rest acc
      | none => none

def isLeap (y : Nat) : Bool := (y % 4 = 0 && y % 100 ≠ 0) || y % 400 = 0

def daysInMonth (y m : Nat) : Nat :=
  if m = 2 then (if isLeap y then 29 else 28)
  else if m = 4 || m = 6 || m = 9 || m = 11 then 30
  else 31

/-- The datetime constructor validation applied to a completed match:
MINYEAR is 1, the day must fit the month, and seconds above 59 are
rejected. -/
def mkValidDT (acc : ParseAcc) : Option DT :=
  if 1 ≤ acc.y ∧ 1 ≤ acc.d ∧ acc.d ≤ daysInMonth acc.y acc.mo ∧ acc.s ≤ 59 then
    some ⟨acc.y, acc.mo, acc.d, acc.h, acc.mi, acc.s, acc.off⟩
  else none

/-- Model of datetime.strptime of one format string: regex phase then
constructor validation. -/
def strptime (toks : List FmtTok) (l : List Char) : Option DT :=
  match runFmt toks l {} with
  | some acc => mkValidDT acc
  | none => none

/-- The seven formats of src/main.py lines 158-166, in order. -/
def mainFormats : List (List FmtTok) :=
  [ [.year, .lit '-', .monthNum, .lit '-', .dayNum, .lit 'T', .hourNum, .lit ':',
     .minuteNum, .lit ':', .secondNum, .lit 'Z'],
    [.year, .lit '-', .monthNum, .lit '-', .dayNum, .lit 'T', .hourNum, .lit ':',
     .minuteNum, .lit ':', .secondNum],
    [.year, .lit '-', .monthNum, .lit '-', .dayNum, .ws, .hourNum, .lit ':',
     .minuteNum, .lit ':', .secondNum],
    [.weekday, .lit ',', .ws, .dayNum, .ws, .monthName, .ws, .year, .ws, .hourNum,
     .lit ':', .minuteNum, .lit ':', .secondNum, .ws, .offset],
    [.weekday, .lit ',', .ws, .dayNum, .ws, .monthName, .ws, .year, .ws, .hourNum,
     .lit ':', .minuteNum, .lit ':', .secondNum, .ws, .zoneName],
    [.year, .lit '-', .monthNum, .lit '-', .dayNum],
    [.dayNum, .ws, .monthName, .ws, .year] ]

/-- The for-loop of src/main.py lines 167-174: try each format, and on the
first success strip the tzinfo if one was attached (without converting the
wall clock). -/
def tryFormats : List (List FmtTok) → List Char → Option DT
  | [], _ => none
  | f :: fs, l =>
      match strptime f l with
      | some dt => some (if dt.tz.isSome then { dt with tz := none } else dt)
      | none => tryFormats fs l

/-- The string branch of parse_date (src/main.py lines 156-179): strip, try
the formats in order, and as a fallback return datetime.now() when the
string contains the current date in YYYY-MM-DD form. -/
def parseDateStr (c : Clock) (s : String) : Option DT :=
  let t := pyStrip s
  match tryFormats mainFormats t.toList with
  | some dt => some dt
  | none => if pyContains t c.todayStr then some c.now else none

/-- JobScraperOrchestrator.parse_date (src/main.py lines 141-181).  The
falsy guard catches null and the empty string; the sentinel older maps to
null; a datetime input has its tzinfo dropped (when tz is already none the
update is the identity, as in the code); a date input is combined with
midnight. -/
def parseDate (c : Clock) : PubDate → Option DT
  | .pnone => none
  | .pstr s =>
      if s = "" then none
      else if s = "older" then none
      else parseDateStr c s
  | .pdt d => some { d with tz := none }
  | .pdate y m dd => some ⟨y, m, dd, 0, 0, 0, none⟩

/-- The unparsable-date marker test of is_published_today (src/main.py
lines 187-189): the raw value is a string whose lowering contains today or
oggi. -/
def hasTodayMarker : PubDate → Bool
  | .pstr s => pyContains (lowerStr s) "today" || pyContains (lowerStr s) "oggi"
  | _ => false

/-- JobScraperOrchestrator.is_published_today (src/main.py lines 183-194). -/
def isPublishedToday (c : Clock) (pd : PubDate) (daysWindow : Int) : Bool :=
  match parseDate c pd with
  | none => hasTodayMarker pd
  | some dt => decide (tdDays c.now dt ≤ daysWindow)

/-! ### Job records and the per-job pipeline of process_job_list -/
/-- Python truthiness of an optional string (absent and empty are falsy). -/
def pyTruthyOS : Option String → Bool
  | none => false
  | some s => s ≠ ""

/-- The company sub-dict: adapters supply a name and optionally a logo.
Further metadata keys are elided (no claim touches them). -/
structure Company where
  name : Option String
  logo : Option String
  deriving DecidableEq, Repr

/-- Geocoder result (src/utils/geocoding.py): latitude, longitude and the
formatted address.  Coordinates are floats in the source; they are carried
opaquely here as integers, no claim computes with them. -/
structure Geo where
  lat : Int
  lng : Int
  formatted_address : String
  deriving DecidableEq, Repr

/-- The in-flight job dict, restricted to the keys the orchestrator reads
or writes.  description uses the empty string for an absent key, matching
the job.get with an empty-string default at line 235. -/
structure Job where
  link : Option String
  title : String
  source : String
  description : String
  published_at : PubDate
  salary_min : Option Int
  salary_max : Option Int
  company : Option Company
  city : Option String
  country : Option String
  location : Option String
  seniority : Option String
  employment_type : Option String
  formatted_address : Option String
  formatted_address_verified : Option String
  location_geo : Option (Int × Int)
  remote : Option Bool
  company_id : Option Nat
  seniority_id : Option Nat
  deriving DecidableEq, Repr

/-- The shapes the AI-returned city field can take: null, a string, a list,
or another scalar carried by its str() rendering (a non-zero scalar; the
falsy-zero edge is elided). -/
inductive CityVal where
  | cnull
  | cstr (s : String)
  | clist (l : List String)
  | cother (s : String)
  deriving DecidableEq, Repr

/-- The AI categorization result (src/ai/categorizer.py): the JSON object
always carries these keys, with null allowed; is_remote is the legacy alias
some responses use instead of remote.  salary values are already integers
here: the int() coercion of lines 306-315 is the identity on them and its
failure branch maps a malformed value to null, which an ai value of none
also represents.  language, technical_skills, requirements and benefits are
elided (no claim reads them). -/
structure AIData where
  city : CityVal
  salary_min : Option Int
  salary_max : Option Int
  remote : Option Bool
  is_remote : Option Bool
  country : Option String
  formatted_address : Option String
  seniority : Option String
  employment_type : Option String
  deriving DecidableEq, Repr

/-- City normalization, src/main.py lines 296-303: a list maps to its first
element or null, another scalar to its str() form, strings and null pass
through. -/
def normCity : CityVal → Option String
  | .cnull => none
  | .cstr s => some s
  | .clist l => l.head?
  | .cother s => some s

/-- The pure enrichment-merge of src/main.py lines 296-333: normalize city,
salaries and the remote flag inside ai_data, capture the adapter salaries,
apply job.update(ai_data) (every key of the categorizer JSON overwrites the
job field), restore each adapter salary that was non-null, then re-assert
country and city when truthy (lines 336-340). -/
def applyAI (job : Job) (ai : AIData) : Job :=
  let aiCity := normCity ai.city
  let aiRemote := match ai.is_remote with
    | some b => b
    | none => ai.remote.getD false
  let osmin := job.salary_min
  let osmax := job.salary_max
  let j1 := { job with
      salary_min := ai.salary_min
      salary_max := ai.salary_max
      remote := some aiRemote
      city := aiCity
      country := ai.country
      seniority := ai.seniority
      employment_type := ai.employment_type
      formatted_address := ai.formatted_address }
  let j2 := { j1 with
      salary_min := if osmin ≠ none then osmin else j1.salary_min
      salary_max := if osmax ≠ none then osmax else j1.salary_max }
  { j2 with
      country := if pyTruthyOS ai.country then ai.country else j2.country
      city := if pyTruthyOS aiCity then aiCity else j2.city }

/-- Geocoding step, src/main.py lines 342-363: prefer the AI formatted
address, else synthesize city-comma-country; on a geocoder hit attach the
GeoJSON point as (lng, lat), record the verified address, and backfill the
generic location only when it was empty. -/
def geocodeStep (geocode : String → Option Geo) (ai : AIData) (job : Job) : Job :=
  let geoAddr : Option String :=
    if pyTruthyOS ai.formatted_address then ai.formatted_address
    else if pyTruthyOS job.city then
      some (String.intercalate ", "
        ((job.city.getD "") :: (if pyTruthyOS job.country then [job.country.getD ""] else [])))
    else none
  match geoAddr with
  | none => job
  | some addr =>
      if addr ≠ "" then
        match geocode addr with
        | some g =>
            { job with
                location_geo := some (g.lng, g.lat)
                formatted_address_verified := some g.formatted_address
                location := if pyTruthyOS job.location then job.location else some g.formatted_address }
        | none => job
      else job

/-- Per-job effects the orchestrator consumes from its collaborators while
handling one job: the outcome of DescriptionFetcher.fetch as awaited by the
caller, the deduplicator verdict, the AI result, the geocoder, the ids the
upserts return, the insert result, and the HTML detection and conversion of
lines 275-282 (BeautifulSoup and markdownify on the snippet, carried as an
oracle since no claim depends on that conversion). -/
inductive FetchOutcome where
  | ok (desc : Option String) (logo : Option String)
  | raises

structure JobEnv where
  fetch : FetchOutcome
  isDup : Bool
  ai : Option AIData
  geocode : String → Option Geo
  companyId : Nat
  seniorityId : Nat
  insertResult : Option Nat
  descIsHtml : Bool
  htmlToMd : String → String

/-- Company / seniority upserts and the explicit employment_type copy,
src/main.py lines 365-377.  A present company dict counts as truthy (the
adapters always populate the name key). -/
def attachIds (env : JobEnv) (ai : AIData) (job : Job) : Job :=
  let j1 := match job.company with
    | some _ => { job with company_id := some env.companyId }
    | none => job
  let j2 := if pyTruthyOS j1.seniority then { j1 with seniority_id := some env.seniorityId } else j1
  if pyTruthyOS ai.employment_type then { j2 with employment_type := ai.employment_type } else j2

/-- The whole enrichment of one deduplicated job, src/main.py
lines 295-377. -/
def enrich (env : JobEnv) (job : Job) (ai : AIData) : Job :=
  attachIds env ai (geocodeStep env.geocode ai (applyAI job ai))

/-- Result of the description-refinement block, src/main.py lines 234-272:
either the job is dropped (only the strict RSS branch on a raised
exception), or it continues, with the flag recording whether the fetched
description is already Markdown. -/
inductive DescResult where
  | dropped (j : Job)
  | cont (j : Job) (isMarkdown : Bool)
  deriving DecidableEq, Repr

/-- Description refinement, src/main.py lines 234-272.  The fetch is only
attempted when the description is missing or shorter than 500 characters.
A successful fetch replaces the description and, when a logo was extracted
and the company has none, attaches it (lines 247-251).  A null fetched
description keeps the snippet.  A raised exception drops the job with a
printed, user-visible error exactly when the source is the RSS Feed, and
keeps the snippet otherwise. -/
def descStage (env : JobEnv) (job : Job) : DescResult :=
  if job.description = "" ∨ job.description.length < 500 then
    match env.fetch with
    | .ok (some fullDesc) logo =>
        let j1 := { job with description := fullDesc }
        let j2 :=
          if pyTruthyOS logo then
            let comp := j1.company.getD ⟨none, none⟩
            if pyTruthyOS comp.logo then { j1 with company := some comp }
            else { j1 with company := some { comp with logo := logo } }
          else j1
        .cont j2 true
    | .ok none _ => .cont job false
    | .raises =>
        if job.source = "RSS Feed" then .dropped job
        else .cont job false
  else .cont job false

/-- Terminal state of one job inside process_job_list.  Constructors that
carry a job expose the record as it stood at that decision point;
rssDropped is the reported, user-visible error branch of line 261-268. -/
inductive Outcome where
  | noLink
  | irrelevant
  | tooOld
  | rssDropped (j : Job)
  | duplicate (j : Job)
  | aiFailed (j : Job)
  | inserted (j : Job)
  | insertRejected (j : Job)
  deriving DecidableEq, Repr

/-- The job carried by a post-gate outcome. -/
def outcomeJob : Outcome → Option Job
  | .noLink => none
  | .irrelevant => none
  | .tooOld => none
  | .rssDropped j => some j
  | .duplicate j => some j
  | .aiFailed j => some j
  | .inserted j => some j
  | .insertRejected j => some j

/-- JobScraperOrchestrator.is_relevant_job (src/main.py lines 196-204). -/
def isRelevantJob (keywords : List String) (title : String) : Bool :=
  if title = "" then false
  else keywords.any fun k => pyContains (lowerStr title) (lowerStr k)

/-- The published_at overwrite of src/main.py lines 230-232: the parsed
instant, or the aware UTC now when parsing fails (Python or on a null
parse result). -/
def normalizePub (c : Clock) (j : Job) : Job :=
  { j with published_at := .pdt ((parseDate c j.published_at).getD c.nowUtc) }

/-- The generic HTML-to-Markdown pass of lines 275-282, taken when the
description is truthy, not already Markdown, and detected as HTML. -/
def htmlPass (env : JobEnv) (j : Job) (isMarkdown : Bool) : Job :=
  if j.description ≠ "" ∧ isMarkdown = false ∧ env.descIsHtml then
    { j with description := env.htmlToMd j.description }
  else j

/-- The stages after the three gates: description refinement, the generic
HTML-to-Markdown pass, deduplication, AI categorization, enrichment and
insert (src/main.py lines 234-408). -/
def afterGate (env : JobEnv) (j1 : Job) : Outcome :=
  match descStage env j1 with
  | .dropped j => .rssDropped j
  | .cont j2 isMd =>
      if env.isDup then .duplicate (htmlPass env j2 isMd)
      else
        match env.ai with
        | none => .aiFailed (htmlPass env j2 isMd)
        | some ai =>
            match env.insertResult with
            | some _ => .inserted (enrich env (htmlPass env j2 isMd) ai)
            | none => .insertRejected (enrich env (htmlPass env j2 isMd) ai)

/-- One iteration body of process_job_list (src/main.py lines 211-408):
the link guard, the relevance filter, the freshness gate, then the
normalization and the later stages. -/
def processJob (c : Clock) (keywords : List String) (daysWindow : Int)
    (env : JobEnv) (job : Job) : Outcome :=
  if pyTruthyOS job.link = false then .noLink
  else if isRelevantJob keywords job.title = false then .irrelevant
  else if isPublishedToday c job.published_at daysWindow = false then .tooOld
  else afterGate env (normalizePub c job)

/-- The quota guard expression of src/main.py lines 208 and 427-429:
Python evaluates limit and count ge limit, so a null or zero limit never
fires. -/
def quotaGuard (limit : Option Int) (count : Int) : Bool :=
  match limit with
  | none => false
  | some l => l ≠ 0 && count ≥ l

/-- process_job_list (src/main.py lines 206-412): walk the scraped jobs,
breaking when the quota guard fires, incrementing the language count only
on a confirmed insert, and returning the final count. -/
def processJobList (c : Clock) (keywords : List String) (daysWindow : Int)
    (envf : Job → JobEnv) (limit : Option Int) : List Job → Int → Int
  | [], count => count
  | j :: rest, count =>
      if quotaGuard limit count then count
      else
        let count1 := match processJob c keywords daysWindow (envf j) j with
          | .inserted _ => count + 1
          | _ => count
        processJobList c keywords daysWindow envf limit rest count1

/-! ### HTML tree model for DescriptionFetcher._extract_content

A parsed HTML fragment is a rose tree of element and text nodes, the shape
BeautifulSoup exposes to the extractor after the script/style/comment
stripping of lines 54-72.  The claims about _extract_content start from the
selected content container (the candidate-selection phase of lines 74-108
only picks which subtree the rest operates on), so the functions below take
the container as input. -/
inductive Node where
  | text (s : String)
  | elem (name : String) (attrs : List (String × String)) (children : List Node)

/-- Attribute lookup, the element.get of BeautifulSoup. -/
def getAttr (attrs : List (String × String)) (k : String) : Option String :=
  (attrs.find? fun p => decide (p.1 = k)).map fun p => p.2

def getAttrD (attrs : List (String × String)) (k d : String) : String :=
  (getAttr attrs k).getD d

/-- Attribute lookup on a node (text nodes have none). -/
def nodeAttr (n : Node) (k : String) : Option String :=
  match n with
  | .text _ => none
  | .elem _ attrs _ => getAttr attrs k

/-- Whether a node is an img element. -/
def isImgN : Node → Bool
  | .text _ => false
  | .elem nm _ _ => nm = "img"

mutual

/-- BeautifulSoup get_text of a node: the concatenated text descendants
(str of a text node, get_text of an element). -/
def nodeTextC : Node → List Char
  | .text s => s.toList
  | .elem _ _ cs => nodeTextCL cs

def nodeTextCL : List Node → List Char
  | [] => []
  | n :: rest => nodeTextC n ++ nodeTextCL rest

end

mutual

/-- Whether any img element occurs in the tree. -/
def hasImg : Node → Bool
  | .text _ => false
  | .elem nm _ cs => nm = "img" || hasImgL cs

def hasImgL : List Node → Bool
  | [] => false
  | n :: rest => hasImg n || hasImgL rest

end

mutual

/-- Number of img elements in the tree (img elements have no children in
HTML, nested occurrences count their outermost layer like decompose
removes it). -/
def countImg : Node → Nat
  | .text _ => 0
  | .elem nm _ cs => (if nm = "img" then 1 else 0) + countImgL cs

def countImgL : List Node → Nat
  | [] => 0
  | n :: rest => countImg n + countImgL rest

end

mutual

/-- The find_all img / decompose loop of lines 132-134: every img element
is removed with its subtree. -/
def remImgs : Node → Node
  | .text s => .text s
  | .elem nm a cs => .elem nm a (remImgsL cs)

def remImgsL : List Node → List Node
  | [] => []
  | n :: rest => if isImgN n then remImgsL rest else remImgs n :: remImgsL rest

end

mutual

/-- decompose of the first img element in document (preorder) order. -/
def remFirstImg : Node → Node
  | .text s => .text s
  | .elem nm a cs => .elem nm a (remFirstImgL cs)

def remFirstImgL : List Node → List Node
  | [] => []
  | n :: rest =>
      if isImgN n then rest
      else if hasImg n then remFirstImg n :: rest
      else n :: remFirstImgL rest

end

mutual

/-- container.find img together with the concatenated text of the previous
siblings of the found image (lines 113-122): walk children in document
order; a child that is an img is the hit, with the text accumulated at this
level; otherwise descend, and on a hit inside a child report its sibling
text from that level.  The previous_siblings iterator of the code yields
siblings nearest-first, so each passed sibling's text is prepended: the
reported text is the reverse-order concatenation of the sibling texts,
exactly as the += loop builds it. -/
def firstImgSib : Node → Option (Node × List Char)
  | .text _ => none
  | .elem _ _ cs => firstImgSibL cs []

def firstImgSibL : List Node → List Char → Option (Node × List Char)
  | [], _ => none
  | n :: rest, acc =>
      if isImgN n then some (n, acc)
      else
        match firstImgSib n with
        | some r => some r
        | none => firstImgSibL rest (nodeTextC n ++ acc)

end

/-- One character of markdownify text escaping: the default escaping of
asterisks and underscores plus the escape_misc character class. -/
def escC (c : Char) : List Char :=
  if c = '*' || c = '_' || c = '\\' || c = '&' || c = '<' || c = '`' || c = '[' ||
     c = '>' || c = '~' || c = '#' || c = '=' || c = '+' || c = '|' || c = '-' then
    ['\\', c]
  else [c]

def escTextC (l : List Char) : List Char := (l.map escC).flatten

/-- Heading level of an element name. -/
def headerLevel (nm : String) : Option Nat :=
  if nm = "h1" then some 1 else if nm = "h2" then some 2 else if nm = "h3" then some 3
  else if nm = "h4" then some 4 else if nm = "h5" then some 5 else if nm = "h6" then some 6
  else none

mutual

/-- Markdown rendering of the markdownify library on the tags the job pages
use: an image renders as bang-bracket alt, bracket-paren src; a link as
bracketed text; paragraphs, headers, emphasis and list items emit their
usual markers; unknown elements pass their converted children through.
This models the external markdownify package, not repository code. -/
def mdC : Node → List Char
  | .text s => escTextC s.toList
  | .elem nm attrs cs =>
      let inner := mdCL cs
      if nm = "img" then
        ['!', '['] ++ (getAttrD attrs "alt" "").toList ++ [']', '('] ++
          (getAttrD attrs "src" "").toList ++ [')']
      else if nm = "a" then
        ['['] ++ inner ++ [']', '('] ++ (getAttrD attrs "href" "").toList ++ [')']
      else if nm = "br" then ['\n']
      else if nm = "p" ∨ nm = "div" then inner ++ ['\n', '\n']
      else
        match headerLevel nm with
        | some k => List.replicate k '#' ++ [' '] ++ inner ++ ['\n', '\n']
        | none =>
            if nm = "strong" ∨ nm = "b" then ['*', '*'] ++ inner ++ ['*', '*']
            else if nm = "em" ∨ nm = "i" then ['*'] ++ inner ++ ['*']
            else if nm = "li" then ['*', ' '] ++ inner ++ ['\n']
            else if nm = "ul" ∨ nm = "ol" then inner ++ ['\n']
            else inner

def mdCL : List Node → List Char
  | [] => []
  | n :: rest => mdC n ++ mdCL rest

end

/-- Suffix strictly after the last newline of the list, when one occurs. -/
def afterLastNL : List Char → Option (List Char)
  | [] => none
  | c :: rest =>
      match afterLastNL rest with
      | some s => some s
      | none => if c = '\n' then some rest else none

/-- The non-overlapping global substitution re.sub of a newline, optional
whitespace, newline pattern by two newlines, as performed by _clean_markdown
(src/utils/description_fetcher.py line 145).  At a newline the greedy
backtracking match ends at the last newline of the following whitespace
run; the scan resumes after the replacement.  The fuel argument only makes
the recursion structural; pysubC supplies enough of it for every input, as
each step consumes at least one character. -/
def pysubF : Nat → List Char → List Char
  | 0, l => l
  | _ + 1, [] => []
  | fuel + 1, ch :: rest =>
      if ch = '\n' then
        match afterLastNL (rest.takeWhile pyWs) with
        | some tailRun => '\n' :: '\n' :: pysubF fuel (tailRun ++ rest.dropWhile pyWs)
        | none => ch :: pysubF fuel rest
      else ch :: pysubF fuel rest

def pysubC (l : List Char) : List Char := pysubF l.length l

/-- DescriptionFetcher._clean_markdown (lines 140-146): the blank-line
substitution followed by strip. -/
def cleanMarkdownC (l : List Char) : List Char := stripC (pysubC l)

def cleanMarkdownS (s : String) : String := String.mk (cleanMarkdownC s.toList)

/-- The logo heuristic of _extract_content lines 110-130: find the first
image, concatenate the text of its previous siblings, and when the stripped
text is shorter than 50 characters take the src attribute as the logo and
decompose the image exactly when that src is truthy. -/
def extractLogo (c : Node) : Node × Option String :=
  match firstImgSib c with
  | none => (c, none)
  | some (img, sibTxt) =>
      if (stripC sibTxt).length < 50 then
        let logoUrl := nodeAttr img "src"
        (if pyTruthyOS logoUrl then remFirstImg c else c, logoUrl)
      else (c, none)

/-- Lines 110-138 of _extract_content, from the selected container: logo
heuristic, removal of every remaining image, Markdown conversion and
cleanup. -/
def extractFromContainer (c : Node) : String × Option String :=
  let r := extractLogo c
  (String.mk (cleanMarkdownC (mdC (remImgs r.1))), r.2)

/-- What the network layer hands DescriptionFetcher.fetch: a connection
level error (anything raised inside the try block), or a response with a
status and, when parsing and container selection succeed, the selected
content container. -/
inductive HttpResult where
  | connError
  | resp (status : Nat) (container : Option Node)

/-- DescriptionFetcher.fetch (lines 25-45): an empty url short-circuits;
everything raised inside the try block, including the raise on a non-200
status, is caught by the except clause which returns a null pair, so the
coroutine returns normally on every network or extraction failure. -/
def fetchReturn (url : String) (r : HttpResult) : Option String × Option String :=
  if url = "" then (none, none)
  else
    match r with
    | .connError => (none, none)
    | .resp status cont =>
        if status ≠ 200 then (none, none)
        else
          match cont with
          | none => (none, none)
          | some c => (some (extractFromContainer c).1, (extractFromContainer c).2)

/-! ### Heading pass of BaseScraper.normalize_html

The heading phase of normalize_html (src/scrapers/base_scraper.py lines
46-84) acts on the sequence of heading levels in document order: every h1
is renamed h2 (lines 48-49); the headings h2..h6 are then collected in
document order (line 58) — after the demotion this is every heading — the
first is forced to h2 when it is not (lines 61-62), and the walk of lines
72-84 clamps a jump of more than one level below the previous one. -/
/-- Lines 48-49: rename every h1 to h2. -/
def demoteH1 (ls : List Nat) : List Nat := ls.map fun l => if l = 1 then 2 else l

/-- Lines 61-62: force the first collected heading to level 2. -/
def forceFirstH2 : List Nat → List Nat
  | [] => []
  | l :: rest => (if l ≠ 2 then 2 else l) :: rest

/-- Lines 72-84: walking with the previous level (starting at 2), a level
more than one below the previous is clamped to one below it. -/
def clampWalk : Nat → List Nat → List Nat
  | _, [] => []
  | last, l :: rest =>
      if l > last + 1 then (last + 1) :: clampWalk (last + 1) rest
      else l :: clampWalk l rest

/-- The heading-level transformation of normalize_html. -/
def normalizeHeadings (ls : List Nat) : List Nat :=
  clampWalk 2 (forceFirstH2 (demoteH1 ls))

/-! ### Claim theorems -/
/-- Fixed demonstration clock: local wall clock 2024-05-15 12:00:00, UTC
wall clock 2024-05-15 10:00:00. -/
def demoClock : Clock := ⟨⟨2024, 5, 15, 12, 0, 0, none⟩, ⟨2024, 5, 15, 10, 0, 0, none⟩⟩

/-- Clock for the future-date witness: local time 2024-01-01 00:00:00. -/
def clockW10 : Clock := ⟨⟨2024, 1, 1, 0, 0, 0, none⟩, ⟨2024, 1, 1, 0, 0, 0, none⟩⟩

/-- Job used by the merge witness: adapter salary 40000 to 60000. -/
def jobW4 : Job :=
  { link := some "http://x/1", title := "Python Developer", source := "LinkedIn",
    description := "", published_at := .pstr "2024-05-15", salary_min := some 40000,
    salary_max := some 60000, company := none, city := none, country := none,
    location := none, seniority := none, employment_type := none,
    formatted_address := none, formatted_address_verified := none, location_geo := none,
    remote := none, company_id := none, seniority_id := none }

/-- AI result used by the merge witness: estimates 35000 to 55000. -/
def aiW4 : AIData :=
  { city := .cnull, salary_min := some 35000, salary_max := some 55000, remote := some true,
    is_remote := none, country := none, formatted_address := none, seniority := none,
    employment_type := none }

def envW4 : JobEnv :=
  { fetch := .ok none none, isDup := false, ai := some aiW4, geocode := fun _ => none,
    companyId := 1, seniorityId := 1, insertResult := some 1, descIsHtml := false,
    htmlToMd := id }

/-- The job a DescResult carries. -/
def descResJob : DescResult → Job
  | .dropped j => j
  | .cont j _ => j

def envW1 : JobEnv :=
  { fetch := .ok none none, isDup := true, ai := none, geocode := fun _ => none,
    companyId := 1, seniorityId := 1, insertResult := none, descIsHtml := false,
    htmlToMd := id }

/-- The property C1 asserts of the normalized field: a UTC-naive instant or
null. -/
def isUtcNaiveOrNull : PubDate → Bool
  | .pnone => true
  | .pdt d => decide (d.tz = none)
  | _ => false

/-- Job whose raw date only carries the today marker. -/
def jobC1 : Job := { jobW4 with published_at := .pstr "today" }

/-- RSS job with a short snippet description, dated on the demonstration
clock day. -/
def jobC3 : Job :=
  { jobW4 with
      source := "RSS Feed"
      description := "short snippet"
      salary_min := none
      salary_max := none }

/-- Environment in which the fetch of the job link hit an HTTP 500: the
fetch coroutine catches the raised status exception itself and returns the
null pair, so the orchestrator awaits a normal return. -/
def envC3 : JobEnv :=
  { fetch := .ok (fetchReturn "http://x/1" (.resp 500 none)).1
      (fetchReturn "http://x/1" (.resp 500 none)).2,
    isDup := true, ai := none, geocode := fun _ => none, companyId := 1,
    seniorityId := 1, insertResult := none, descIsHtml := false, htmlToMd := id }

def envC3r : JobEnv := { envC3 with fetch := .raises }

/-- Detector of an over-long blank run: scanning with the count of newlines
seen in the current whitespace run, it reports true when some maximal
whitespace segment contains three or more newlines — that is, when two or
more consecutive blank lines survive. -/
def wsNLBad : List Char → Nat → Bool
  | [], _ => false
  | c :: rest, k =>
      if c = '\n' then (decide (3 ≤ k + 1) || wsNLBad rest (k + 1))
      else if pyWs c then wsNLBad rest k
      else wsNLBad rest 0

/-- Whether a string is trimmed: its first and last characters, when they
exist, are not whitespace. -/
def strippedOk (l : List Char) : Bool :=
  (match l.head? with | none => true | some c => !pyWs c) &&
  (match l.getLast? with | none => true | some c => !pyWs c)

/-- Whether a string is free of the exclamation mark. -/
def noBangStr (s : String) : Bool := s.toList.all fun c => !(decide (c = '!'))

mutual

/-- Whether every text node and every attribute value of the tree is free
of the exclamation-mark character, the only character from which Markdown
image syntax can start. -/
def bangFreeN : Node → Bool
  | .text s => noBangStr s
  | .elem _ attrs cs => attrs.all (fun p => noBangStr p.2) && bangFreeL cs

def bangFreeL : List Node → Bool
  | [] => true
  | n :: rest => bangFreeN n && bangFreeL rest

end

/-- Container for the C6 witness: a leading logo image with no preceding
text, a paragraph, a second image, and trailing text. -/
def containerW6 : Node :=
  .elem "div" []
    [ .elem "img" [("src", "http://logo.png")] [],
      .elem "p" [] [.text "We hire engineers"],
      .elem "img" [("src", "http://second.png")] [],
      .text "Apply now" ]

/-- Container for the C6 counterexample: no image element at all, just a
paragraph whose text ends in an exclamation mark directly followed by a
link — ordinary job-page content. -/
def containerC6cex : Node :=
  .elem "div" []
    [ .elem "p" []
        [ .text "We are hiring!",
          .elem "a" [("href", "http://x/apply")] [.text "Apply"] ] ]

example : parseDate ⟨⟨2024, 5, 15, 12, 0, 0, none⟩, ⟨2024, 5, 15, 10, 0, 0, none⟩⟩
    (.pstr "Mon, 01 Jan 2024 12:00:00 +0200") = some ⟨2024, 1, 1, 12, 0, 0, none⟩ := by decide

example : parseDate ⟨⟨2024, 5, 15, 12, 0, 0, none⟩, ⟨2024, 5, 15, 10, 0, 0, none⟩⟩
    (.pstr "2023-01-01T12:00:00Z") = some ⟨2023, 1, 1, 12, 0, 0, none⟩ := by decide

example : parseDate ⟨⟨2024, 5, 15, 12, 0, 0, none⟩, ⟨2024, 5, 15, 10, 0, 0, none⟩⟩
    (.pstr "today") = none := by decide

example : isPublishedToday ⟨⟨2024, 5, 15, 12, 0, 0, none⟩, ⟨2024, 5, 15, 10, 0, 0, none⟩⟩
    (.pstr "today") 1 = true := by decide

example : isPublishedToday ⟨⟨2024, 5, 15, 12, 0, 0, none⟩, ⟨2024, 5, 15, 10, 0, 0, none⟩⟩
    (.pstr "2024-05-14") 1 = true := by decide

example : isPublishedToday ⟨⟨2024, 5, 15, 12, 0, 0, none⟩, ⟨2024, 5, 15, 10, 0, 0, none⟩⟩
    (.pstr "2024-05-13") 1 = false := by decide

theorem afterLastNL_length : ∀ l s, afterLastNL l = some s → s.length < l.length := by
  intro l
  induction l with
  | nil => intro s h; simp [afterLastNL] at h
  | cons c rest ih =>
      intro s h
      simp only [afterLastNL] at h
      cases hr : afterLastNL rest with
      | some t =>
          rw [hr] at h
          cases h
          exact Nat.lt_trans (ih _ hr) (by simp)
      | none =>
          rw [hr] at h
          by_cases hc : c = '\n'
          · simp [hc] at h
            cases h
            simp
          · simp [hc] at h

example : normalizeHeadings [1, 4] = [2, 3] := by decide

example : normalizeHeadings [2, 4, 6] = [2, 3, 4] := by decide

example : cleanMarkdownS "  a\n \n\nb " = "a\n\nb" := by decide

example : extractFromContainer (.elem "div" []
    [ .elem "img" [("src", "http://logo.png")] [],
      .elem "p" [] [.text "We hire engineers"] ]) =
    ("We hire engineers", some "http://logo.png") := by decide

/-- C5: the freshness check accepts exactly the inputs whose parsed instant
is at most window_days old by the floored day difference (inclusive
boundary, any window size including zero), and when parsing yields null it
accepts exactly the strings containing today or oggi case-insensitively;
the two trailing conjuncts instantiate the boundary: one day old inside a
one-day window is accepted, two days old is rejected. -/
theorem freshness_gate_spec (c : Clock) (raw : PubDate) (w : Nat) :
    (isPublishedToday c raw (w : Int) = true ↔
      ((∃ dt, parseDate c raw = some dt ∧ tdDays c.now dt ≤ (w : Int)) ∨
       (parseDate c raw = none ∧ hasTodayMarker raw = true))) ∧
    isPublishedToday demoClock (.pdt ⟨2024, 5, 14, 12, 0, 0, none⟩) 1 = true ∧
    isPublishedToday demoClock (.pdt ⟨2024, 5, 13, 12, 0, 0, none⟩) 1 = false := by
  refine ⟨?_, by decide, by decide⟩
  unfold isPublishedToday
  cases h : parseDate c raw with
  | none => simp [h]
  | some dt => simp [h]

/-- C10: a raw date parsing to an instant strictly in the future of now
passes the freshness gate for every window size, since the floored day
difference is negative. -/
theorem future_dates_pass_gate (c : Clock) (raw : PubDate) (w : Nat) (dt : DT)
    (hp : parseDate c raw = some dt) (hf : c.now.toSeconds < dt.toSeconds) :
    isPublishedToday c raw (w : Int) = true := by
  unfold isPublishedToday
  rw [hp]
  simp only [decide_eq_true_eq]
  have h1 : tdDays c.now dt < 0 := by
    unfold tdDays
    rw [Int.fdiv_eq_ediv _ (by norm_num)]
    exact Int.ediv_neg' (by omega) (by norm_num)
  omega

/-- Witness for C10 at the raw string 2024-06-01, five months in the
future of the clock, with a zero-day window. -/
theorem future_dates_pass_gate_witness :
    isPublishedToday clockW10 (.pstr "2024-06-01") ((0 : Nat) : Int) = true :=
  future_dates_pass_gate clockW10 (.pstr "2024-06-01") 0 ⟨2024, 6, 1, 0, 0, 0, none⟩
    (by decide) (by decide)

/-- C9: a per-language limit of zero is falsy in the quota guard, so the
guard never fires and process_job_list behaves exactly as with no limit at
all, walking every job, never as a command to persist nothing. -/
theorem zero_quota_means_no_limit :
    (∀ count : Int, quotaGuard (some 0) count = false) ∧
    (∀ (c : Clock) (kw : List String) (dw : Int) (envf : Job → JobEnv)
       (jobs : List Job) (count : Int),
      processJobList c kw dw envf (some 0) jobs count =
        processJobList c kw dw envf none jobs count) := by
  constructor
  · intro count
    simp [quotaGuard]
  · intro c kw dw envf jobs
    induction jobs with
    | nil => intro count; rfl
    | cons j rest ih =>
        intro count
        simp only [processJobList, quotaGuard, ne_eq, not_true_eq_false, Bool.false_and,
          Bool.false_eq_true, if_false]
        apply ih

/-- C2 counterexample: parse_date on the RFC-1123 string with an explicit
+0200 offset returns the source wall clock 12:00:00 with the timezone
merely discarded, not the UTC instant 10:00:00 the claim requires; the
same holds for an already-aware datetime input. -/
theorem tz_conversion_counterexample :
    parseDate demoClock (.pstr "Mon, 01 Jan 2024 12:00:00 +0200") =
      some ⟨2024, 1, 1, 12, 0, 0, none⟩ ∧
    parseDate demoClock (.pdt ⟨2024, 1, 1, 12, 0, 0, some 7200⟩) =
      some ⟨2024, 1, 1, 12, 0, 0, none⟩ ∧
    (⟨2024, 1, 1, 12, 0, 0, none⟩ : DT) ≠ ⟨2024, 1, 1, 10, 0, 0, none⟩ := by
  exact ⟨by decide, by decide, by decide⟩

/-- C2 amended: for a timezone-aware input, datetime or string, parse_date
drops the timezone information without converting the instant: the
returned naive datetime carries the source-local wall-clock fields
unchanged (12:00 for the +0200 example, not 10:00). -/
theorem tz_discarded_without_conversion (c : Clock) (d : DT) :
    parseDate c (.pdt d) = some { d with tz := none } ∧
    parseDate c (.pstr "Mon, 01 Jan 2024 12:00:00 +0200") =
      some ⟨2024, 1, 1, 12, 0, 0, none⟩ := by
  refine ⟨rfl, ?_⟩
  have ht : tryFormats mainFormats (pyStrip "Mon, 01 Jan 2024 12:00:00 +0200").data =
      some ⟨2024, 1, 1, 12, 0, 0, none⟩ := by decide
  simp [parseDate, parseDateStr, ht]

theorem applyAI_salary_min (job : Job) (ai : AIData) (h : job.salary_min ≠ none) :
    (applyAI job ai).salary_min = job.salary_min := by
  simp [applyAI, h]

theorem applyAI_salary_max (job : Job) (ai : AIData) (h : job.salary_max ≠ none) :
    (applyAI job ai).salary_max = job.salary_max := by
  simp [applyAI, h]

theorem geocodeStep_salary (g : String → Option Geo) (ai : AIData) (j : Job) :
    (geocodeStep g ai j).salary_min = j.salary_min ∧
    (geocodeStep g ai j).salary_max = j.salary_max := by
  simp only [geocodeStep]
  repeat' split
  all_goals exact ⟨rfl, rfl⟩

theorem attachIds_salary (env : JobEnv) (ai : AIData) (j : Job) :
    (attachIds env ai j).salary_min = j.salary_min ∧
    (attachIds env ai j).salary_max = j.salary_max := by
  simp only [attachIds]
  repeat' split
  all_goals exact ⟨rfl, rfl⟩

/-- C4: across the enrichment merge, an adapter-supplied salary bound that
was non-null survives the AI overwrite: the merge captures it before
job.update and restores it afterwards, and the later geocoding and id
attachment never touch it. -/
theorem adapter_salary_authoritative (env : JobEnv) (job : Job) (ai : AIData) :
    (job.salary_min ≠ none → (enrich env job ai).salary_min = job.salary_min) ∧
    (job.salary_max ≠ none → (enrich env job ai).salary_max = job.salary_max) := by
  unfold enrich
  constructor
  · intro h
    rw [(attachIds_salary env ai _).1, (geocodeStep_salary env.geocode ai _).1,
      applyAI_salary_min job ai h]
  · intro h
    rw [(attachIds_salary env ai _).2, (geocodeStep_salary env.geocode ai _).2,
      applyAI_salary_max job ai h]

/-- Witness for C4: merging the 40000-60000 adapter salary with the
35000-55000 AI estimate retains the adapter values. -/
theorem adapter_salary_authoritative_witness :
    (enrich envW4 jobW4 aiW4).salary_min = some 40000 ∧
    (enrich envW4 jobW4 aiW4).salary_max = some 60000 :=
  ⟨(adapter_salary_authoritative envW4 jobW4 aiW4).1 (by decide),
   (adapter_salary_authoritative envW4 jobW4 aiW4).2 (by decide)⟩

theorem tryFormats_tz_none (fs : List (List FmtTok)) (l : List Char) (dt : DT)
    (h : tryFormats fs l = some dt) : dt.tz = none := by
  induction fs with
  | nil => simp [tryFormats] at h
  | cons f rest ih =>
      simp only [tryFormats] at h
      cases hs : strptime f l with
      | some r =>
          rw [hs] at h
          cases h
          cases hr : r.tz with
          | none => simp [hr]
          | some v => simp [hr]
      | none => rw [hs] at h; exact ih h

/-- Every instant parse_date returns is naive: the datetime and string
branches strip an attached tzinfo, the date branch and both fallbacks build
naive values. -/
theorem parseDate_tz_none (c : Clock) (pd : PubDate) (dt : DT)
    (h : parseDate c pd = some dt) : dt.tz = none := by
  cases pd with
  | pnone => simp [parseDate] at h
  | pdt d =>
      simp only [parseDate, Option.some.injEq] at h
      rw [← h]
  | pdate y m dd =>
      simp only [parseDate, Option.some.injEq] at h
      rw [← h]
  | pstr s =>
      simp only [parseDate] at h
      by_cases h1 : s = ""
      · simp [h1] at h
      · by_cases h2 : s = "older"
        · simp [h1, h2] at h
        · simp only [h1, h2, if_false, parseDateStr] at h
          cases ht : tryFormats mainFormats (pyStrip s).toList with
          | some r =>
              rw [ht] at h
              cases h
              exact tryFormats_tz_none _ _ _ ht
          | none =>
              rw [ht] at h
              by_cases hc : pyContains (pyStrip s) c.todayStr = true
              · rw [if_pos hc] at h
                cases h
                rfl
              · rw [if_neg hc] at h
                cases h

theorem descStage_pub (env : JobEnv) (j : Job) :
    (descResJob (descStage env j)).published_at = j.published_at := by
  simp only [descStage]
  repeat' split
  all_goals rfl

theorem applyAI_pub (job : Job) (ai : AIData) :
    (applyAI job ai).published_at = job.published_at := by
  simp only [applyAI]

theorem geocodeStep_pub (g : String → Option Geo) (ai : AIData) (j : Job) :
    (geocodeStep g ai j).published_at = j.published_at := by
  simp only [geocodeStep]
  repeat' split
  all_goals rfl

theorem attachIds_pub (env : JobEnv) (ai : AIData) (j : Job) :
    (attachIds env ai j).published_at = j.published_at := by
  simp only [attachIds]
  repeat' split
  all_goals rfl

theorem enrich_pub (env : JobEnv) (j : Job) (ai : AIData) :
    (enrich env j ai).published_at = j.published_at := by
  unfold enrich
  rw [attachIds_pub, geocodeStep_pub, applyAI_pub]

theorem htmlPass_pub (env : JobEnv) (j : Job) (isMd : Bool) :
    (htmlPass env j isMd).published_at = j.published_at := by
  unfold htmlPass
  split
  · rfl
  · rfl

theorem afterGate_pub (env : JobEnv) (j1 j2 : Job)
    (h : outcomeJob (afterGate env j1) = some j2) :
    j2.published_at = j1.published_at := by
  have hd := descStage_pub env j1
  unfold afterGate at h
  cases hds : descStage env j1 with
  | dropped jd =>
      rw [hds] at h hd
      simp only [outcomeJob, Option.some.injEq] at h
      rw [← h]
      exact hd
  | cont jc isMd =>
      rw [hds] at h hd
      dsimp only at h
      simp only [descResJob] at hd
      have hph : (htmlPass env jc isMd).published_at = j1.published_at := by
        rw [htmlPass_pub]; exact hd
      by_cases hdup : env.isDup = true
      · rw [if_pos hdup] at h
        simp only [outcomeJob, Option.some.injEq] at h
        rw [← h]; exact hph
      · rw [if_neg hdup] at h
        cases hai : env.ai with
        | none =>
            rw [hai] at h
            simp only [outcomeJob, Option.some.injEq] at h
            rw [← h]; exact hph
        | some ai =>
            rw [hai] at h
            cases hins : env.insertResult with
            | some n =>
                rw [hins] at h
                simp only [outcomeJob, Option.some.injEq] at h
                rw [← h, enrich_pub]; exact hph
            | none =>
                rw [hins] at h
                simp only [outcomeJob, Option.some.injEq] at h
                rw [← h, enrich_pub]; exact hph

/-- C1 amended: every job that passes the freshness gate has its
published_at overwritten, before deduplication, enrichment and persistence,
with a datetime value: the parsed instant (always naive) when parsing
succeeds, and otherwise the current tz-aware UTC time — never the raw
string, never the sentinel older, never null.  The aware fallback is what
bars the stronger claim that the field is always UTC-naive or null. -/
theorem published_at_normalized (c : Clock) (kw : List String) (dw : Int) (env : JobEnv)
    (job : Job) (j2 : Job) (h : outcomeJob (processJob c kw dw env job) = some j2) :
    j2.published_at = .pdt ((parseDate c job.published_at).getD c.nowUtc) ∧
    ((∃ p, parseDate c job.published_at = some p ∧ p.tz = none) ∨
     (parseDate c job.published_at = none ∧ (c.nowUtc).tz = some 0)) := by
  constructor
  · unfold processJob at h
    split at h
    · simp [outcomeJob] at h
    · split at h
      · simp [outcomeJob] at h
      · split at h
        · simp [outcomeJob] at h
        · rw [afterGate_pub env _ _ h]
          rfl
  · cases hp : parseDate c job.published_at with
    | some p => exact Or.inl ⟨p, rfl, parseDate_tz_none c _ p hp⟩
    | none => exact Or.inr ⟨rfl, rfl⟩

/-- Witness for C1 at a job dated 2024-05-15 reaching the deduplication
stage under the demonstration clock. -/
theorem published_at_normalized_witness :
    ({ jobW4 with published_at := .pdt ⟨2024, 5, 15, 0, 0, 0, none⟩ } : Job).published_at =
      .pdt ((parseDate demoClock jobW4.published_at).getD demoClock.nowUtc) ∧
    ((∃ p, parseDate demoClock jobW4.published_at = some p ∧ p.tz = none) ∨
     (parseDate demoClock jobW4.published_at = none ∧ (demoClock.nowUtc).tz = some 0)) :=
  published_at_normalized demoClock ["python"] 1 envW1 jobW4
    { jobW4 with published_at := .pdt ⟨2024, 5, 15, 0, 0, 0, none⟩ } (by decide)

/-- C1 counterexample: a job dated by the bare string today passes the
freshness gate, parse_date yields null, and the orchestrator stores
datetime.now(pytz.utc) — a tz-aware instant, neither UTC-naive nor null —
as published_at, refuting the claimed disjunction. -/
theorem published_at_counterexample :
    outcomeJob (processJob demoClock ["python"] 1 envW1 jobC1) =
      some { jobC1 with published_at := .pdt ⟨2024, 5, 15, 10, 0, 0, some 0⟩ } ∧
    isUtcNaiveOrNull (.pdt ⟨2024, 5, 15, 10, 0, 0, some 0⟩) = false := by
  exact ⟨by decide, by decide⟩

/-- C3 counterexample: an RSS Feed job whose description expansion fails
with an HTTP 500 is not dropped and no error branch runs — fetch swallows
the failure and returns null, so the job keeps its snippet and proceeds to
deduplication, against the claimed drop-and-report for the strict
source. -/
theorem rss_failure_not_dropped_counterexample :
    fetchReturn "http://x/1" (.resp 500 none) = (none, none) ∧
    jobC3.source = "RSS Feed" ∧
    processJob demoClock ["python"] 1 envC3 jobC3 =
      .duplicate { jobC3 with published_at := .pdt ⟨2024, 5, 15, 0, 0, 0, none⟩ } ∧
    ({ jobC3 with published_at := .pdt ⟨2024, 5, 15, 0, 0, 0, none⟩ } : Job).description =
      "short snippet" := by
  exact ⟨by decide, by decide, by decide, by decide⟩

/-- C3 amended: the drop-and-report branch for the RSS Feed source runs
exactly when the fetch coroutine itself raises — which ordinary HTTP and
extraction failures never do, as fetch catches them and returns a null
pair.  When fetch does raise on a short-description job, an RSS Feed job
is dropped through the reported rssDropped branch while a job of any other
source keeps its snippet unchanged and continues. -/
theorem strict_rss_drop_on_raise (env : JobEnv) (j : Job)
    (hf : env.fetch = .raises)
    (hlen : j.description = "" ∨ j.description.length < 500) :
    (j.source = "RSS Feed" →
      descStage env j = .dropped j ∧ afterGate env j = .rssDropped j) ∧
    (j.source ≠ "RSS Feed" → descStage env j = .cont j false) := by
  have hds : descStage env j =
      (if j.source = "RSS Feed" then DescResult.dropped j else DescResult.cont j false) := by
    unfold descStage
    rw [if_pos hlen, hf]
  constructor
  · intro hsrc
    rw [hds, if_pos hsrc]
    refine ⟨rfl, ?_⟩
    unfold afterGate
    rw [hds, if_pos hsrc]
  · intro hsrc
    rw [hds, if_neg hsrc]

/-- Witness for C3 as amended: with a raising fetch, the RSS Feed job is
dropped through the reported error branch. -/
theorem strict_rss_drop_on_raise_witness :
    descStage envC3r jobC3 = .dropped jobC3 ∧ afterGate envC3r jobC3 = .rssDropped jobC3 :=
  (strict_rss_drop_on_raise envC3r jobC3 rfl (Or.inr (by decide))).1 rfl

theorem demoteH1_length (ls : List Nat) : (demoteH1 ls).length = ls.length := by
  simp [demoteH1]

theorem forceFirstH2_length (ls : List Nat) : (forceFirstH2 ls).length = ls.length := by
  cases ls <;> simp [forceFirstH2]

theorem demoteH1_mem (ls : List Nat) (h : ∀ l ∈ ls, 1 ≤ l) :
    ∀ x ∈ demoteH1 ls, 2 ≤ x := by
  intro x hx
  simp only [demoteH1, List.mem_map] at hx
  obtain ⟨l, hl, hfx⟩ := hx
  have := h l hl
  by_cases h1 : l = 1
  · simp [h1] at hfx; omega
  · simp [h1] at hfx; omega

theorem forceFirstH2_mem (ls : List Nat) (h : ∀ l ∈ ls, 2 ≤ l) :
    ∀ x ∈ forceFirstH2 ls, 2 ≤ x := by
  cases ls with
  | nil => simp [forceFirstH2]
  | cons l rest =>
      intro x hx
      simp only [forceFirstH2, List.mem_cons] at hx
      rcases hx with hx | hx
      · subst hx
        split
        · omega
        · exact h l (by simp)
      · exact h x (by simp [hx])

theorem demoteH1_getD (ls : List Nat) (i : Nat) (h : ls.getD i 0 = 1) :
    (demoteH1 ls).getD i 0 = 2 := by
  induction ls generalizing i with
  | nil => simp at h
  | cons l rest ih =>
      cases i with
      | zero =>
          simp only [List.getD_cons_zero] at h
          simp [demoteH1, h]
      | succ n =>
          simp only [List.getD_cons_succ] at h
          simpa [demoteH1] using ih n h

theorem forceFirstH2_getD (ls : List Nat) (i : Nat) (h : ls.getD i 0 = 2) :
    (forceFirstH2 ls).getD i 0 = 2 := by
  cases ls with
  | nil => simp at h
  | cons l rest =>
      cases i with
      | zero =>
          simp only [List.getD_cons_zero] at h
          simp [forceFirstH2, h]
      | succ n =>
          simpa [forceFirstH2] using h

theorem clampWalk_spec (ls : List Nat) : ∀ (last : Nat), 2 ≤ last → (∀ l ∈ ls, 2 ≤ l) →
    (clampWalk last ls).length = ls.length ∧
    (∀ i, ls.getD i 0 = 2 → (clampWalk last ls).getD i 0 = 2) ∧
    List.Chain' (fun a b => b ≤ a + 1) (clampWalk last ls) ∧
    (∀ b, (clampWalk last ls).head? = some b → b ≤ last + 1) := by
  induction ls with
  | nil =>
      intro last h2 hm
      refine ⟨rfl, ?_, ?_, ?_⟩ <;> simp [clampWalk]
  | cons l rest ih =>
      intro last h2 hm
      have hl : 2 ≤ l := hm l (by simp)
      have hmr : ∀ x ∈ rest, 2 ≤ x := fun x hx => hm x (by simp [hx])
      by_cases hj : l > last + 1
      · obtain ⟨ihlen, ihpos, ihchain, ihhead⟩ := ih (last + 1) (by omega) hmr
        rw [clampWalk, if_pos hj]
        refine ⟨by simp [ihlen], ?_, ?_, ?_⟩
        · intro i hi
          cases i with
          | zero => simp only [List.getD_cons_zero] at hi; omega
          | succ n =>
              simp only [List.getD_cons_succ] at hi ⊢
              exact ihpos n hi
        · rw [List.chain'_cons']
          exact ⟨fun b hb => ihhead b hb, ihchain⟩
        · intro b hb
          simp only [List.head?_cons, Option.some.injEq] at hb
          omega
      · obtain ⟨ihlen, ihpos, ihchain, ihhead⟩ := ih l hl hmr
        rw [clampWalk, if_neg hj]
        refine ⟨by simp [ihlen], ?_, ?_, ?_⟩
        · intro i hi
          cases i with
          | zero =>
              simp only [List.getD_cons_zero] at hi ⊢
              exact hi
          | succ n =>
              simp only [List.getD_cons_succ] at hi ⊢
              exact ihpos n hi
        · rw [List.chain'_cons']
          refine ⟨fun b hb => ?_, ihchain⟩
          have := ihhead b hb
          omega
        · intro b hb
          simp only [List.head?_cons, Option.some.injEq] at hb
          omega

/-- C7: on a heading sequence (levels 1..6 in document order) the
normalizer keeps the length, turns every top-level heading into a level-2
heading, leaves every adjacent pair at most one level apart going down
(jumps clamped to one step), and on one h1 followed directly by an h4
yields h2 then h3. -/
theorem heading_normalizer_spec (ls : List Nat) (hls : ∀ l ∈ ls, 1 ≤ l ∧ l ≤ 6) :
    (normalizeHeadings ls).length = ls.length ∧
    (∀ i, ls.getD i 0 = 1 → (normalizeHeadings ls).getD i 0 = 2) ∧
    List.Chain' (fun a b => b ≤ a + 1) (normalizeHeadings ls) ∧
    normalizeHeadings [1, 4] = [2, 3] := by
  have hd : ∀ x ∈ demoteH1 ls, 2 ≤ x :=
    demoteH1_mem ls fun l hl => (hls l hl).1
  have hf : ∀ x ∈ forceFirstH2 (demoteH1 ls), 2 ≤ x := forceFirstH2_mem _ hd
  obtain ⟨clen, cpos, cchain, _⟩ := clampWalk_spec (forceFirstH2 (demoteH1 ls)) 2 (by omega) hf
  refine ⟨?_, ?_, cchain, by decide⟩
  · rw [normalizeHeadings] at *
    rw [clen, forceFirstH2_length, demoteH1_length]
  · intro i hi
    exact cpos i (forceFirstH2_getD _ i (demoteH1_getD ls i hi))

/-- Witness for C7 at the one-h1-then-h4 input of the specification. -/
theorem heading_normalizer_spec_witness :
    normalizeHeadings [1, 4] = [2, 3] ∧
    List.Chain' (fun a b => b ≤ a + 1) (normalizeHeadings [1, 4]) :=
  ⟨(heading_normalizer_spec [1, 4] (by decide)).2.2.2,
   (heading_normalizer_spec [1, 4] (by decide)).2.2.1⟩

theorem afterLastNL_none (l : List Char) (h : afterLastNL l = none) : '\n' ∉ l := by
  induction l with
  | nil => simp
  | cons c rest ih =>
      simp only [afterLastNL] at h
      cases hr : afterLastNL rest with
      | some t => rw [hr] at h; cases h
      | none =>
          rw [hr] at h
          by_cases hc : c = '\n'
          · simp [hc] at h
          · simp only [List.mem_cons]
            push_neg
            exact ⟨fun he => hc he.symm, ih hr⟩

theorem afterLastNL_decomp (l : List Char) (s : List Char) (h : afterLastNL l = some s) :
    (∃ pre, l = pre ++ '\n' :: s) ∧ '\n' ∉ s := by
  induction l with
  | nil => simp [afterLastNL] at h
  | cons c rest ih =>
      simp only [afterLastNL] at h
      cases hr : afterLastNL rest with
      | some t =>
          rw [hr] at h
          cases h
          obtain ⟨⟨pre, hpre⟩, hnl⟩ := ih hr
          exact ⟨⟨c :: pre, by simp [hpre]⟩, hnl⟩
      | none =>
          rw [hr] at h
          by_cases hc : c = '\n'
          · rw [if_pos hc] at h
            cases h
            exact ⟨⟨[], by simp [hc]⟩, afterLastNL_none _ hr⟩
          · simp [hc] at h

theorem pysubF_fuel : ∀ (fuel : Nat), ∀ (l : List Char) (fuel' : Nat),
    l.length ≤ fuel → l.length ≤ fuel' → pysubF fuel l = pysubF fuel' l := by
  intro fuel
  induction fuel with
  | zero =>
      intro l fuel' h1 _
      have : l = [] := List.eq_nil_of_length_eq_zero (by omega)
      subst this
      cases fuel' <;> rfl
  | succ f ih =>
      intro l fuel' h1 h2
      cases l with
      | nil => cases fuel' <;> rfl
      | cons c rest =>
          cases fuel' with
          | zero => simp at h2
          | succ f2 =>
              simp only [pysubF]
              by_cases hc : c = '\n'
              · rw [if_pos hc, if_pos hc]
                cases han : afterLastNL (rest.takeWhile pyWs) with
                | some tailRun =>
                    have hlt : tailRun.length < (rest.takeWhile pyWs).length :=
                      afterLastNL_length _ _ han
                    have hsum : (rest.takeWhile pyWs).length + (rest.dropWhile pyWs).length
                        = rest.length := by
                      rw [← List.length_append, List.takeWhile_append_dropWhile]
                    have hlen : (tailRun ++ rest.dropWhile pyWs).length ≤ rest.length := by
                      simp only [List.length_append]
                      omega
                    simp only [List.length_cons] at h1 h2
                    dsimp only
                    rw [ih _ f2 (by omega) (by omega)]
                | none =>
                    simp only [List.length_cons] at h1 h2
                    dsimp only
                    rw [ih rest f2 (by omega) (by omega)]
              · rw [if_neg hc, if_neg hc]
                simp only [List.length_cons] at h1 h2
                rw [ih rest f2 (by omega) (by omega)]

theorem pysubF_cons_ne (f : Nat) (c : Char) (rest : List Char) (hc : c ≠ '\n') :
    pysubF (f + 1) (c :: rest) = c :: pysubF f rest := by
  simp only [pysubF, if_neg hc]

theorem pysubF_copy : ∀ (h r : List Char) (fuel : Nat), (∀ c ∈ h, c ≠ '\n') →
    (h ++ r).length ≤ fuel → pysubF fuel (h ++ r) = h ++ pysubF r.length r := by
  intro h
  induction h with
  | nil =>
      intro r fuel _ hlen
      simp only [List.nil_append]
      exact pysubF_fuel fuel r r.length (by simpa using hlen) (le_refl _)
  | cons c h1 ih =>
      intro r fuel hnl hlen
      cases fuel with
      | zero => simp at hlen
      | succ f =>
          have hc : c ≠ '\n' := hnl c (by simp)
          rw [List.cons_append, pysubF_cons_ne f c (h1 ++ r) hc]
          rw [ih r f (fun x hx => hnl x (by simp [hx])) (by simp at hlen ⊢; omega),
            List.cons_append]

theorem wsNLBad_transparent : ∀ (h x : List Char) (k : Nat),
    (∀ c ∈ h, pyWs c = true ∧ c ≠ '\n') → wsNLBad (h ++ x) k = wsNLBad x k := by
  intro h
  induction h with
  | nil => intro x k _; rfl
  | cons c h1 ih =>
      intro x k hc
      have h1c := hc c (by simp)
      simp only [List.cons_append, wsNLBad, if_neg h1c.2, if_pos h1c.1]
      exact ih x k fun y hy => hc y (by simp [hy])

theorem dropWhile_head_false {p : Char → Bool} : ∀ (l : List Char) (c : Char) (t : List Char),
    l.dropWhile p = c :: t → p c = false := by
  intro l
  induction l with
  | nil => intro c t h; simp at h
  | cons a rest ih =>
      intro c t h
      by_cases ha : p a = true
      · rw [List.dropWhile_cons_of_pos ha] at h
        exact ih c t h
      · rw [List.dropWhile_cons_of_neg ha] at h
        cases h
        simpa using ha

theorem wsNLBad_mono : ∀ (l : List Char) (j k : Nat), j ≤ k →
    wsNLBad l k = false → wsNLBad l j = false := by
  intro l
  induction l with
  | nil => intro j k _ _; rfl
  | cons c rest ih =>
      intro j k hjk h
      by_cases hc : c = '\n'
      · simp only [wsNLBad, if_pos hc, Bool.or_eq_false_iff, decide_eq_false_iff_not] at h ⊢
        exact ⟨by omega, ih (j + 1) (k + 1) (by omega) h.2⟩
      · by_cases hw : pyWs c = true
        · simp only [wsNLBad, if_neg hc, if_pos hw] at h ⊢
          exact ih j k hjk h
        · simp only [wsNLBad, if_neg hc, if_neg hw] at h ⊢
          exact h

theorem pysubF_cons_nl (f : Nat) (rest : List Char) :
    pysubF (f + 1) ('\n' :: rest) =
      match afterLastNL (rest.takeWhile pyWs) with
      | some tailRun => '\n' :: '\n' :: pysubF f (tailRun ++ rest.dropWhile pyWs)
      | none => '\n' :: pysubF f rest := by
  simp [pysubF]

theorem wsNLBad_cons_nl (rest : List Char) (k : Nat) :
    wsNLBad ('\n' :: rest) k = (decide (3 ≤ k + 1) || wsNLBad rest (k + 1)) := by
  simp [wsNLBad]

theorem wsNLBad_cons_other (c : Char) (rest : List Char) (k : Nat) (h1 : c ≠ '\n')
    (h2 : pyWs c = false) : wsNLBad (c :: rest) k = wsNLBad rest 0 := by
  simp [wsNLBad, h1, h2]

/-- After the whitespace run following a replaced or kept newline, the scan
continues at a dropWhile suffix; whatever newline count k the run left
behind, that suffix starts at a non-whitespace character, so the run ends
and no further newline joins it. -/
theorem wsNLBad_pysub_drop (f : Nat) (rest : List Char) (k : Nat)
    (ih : ∀ l : List Char, l.length ≤ f → wsNLBad (pysubF f l) 0 = false)
    (hr : rest.length ≤ f) :
    wsNLBad (pysubF (rest.dropWhile pyWs).length (rest.dropWhile pyWs)) k = false := by
  cases hdrop : rest.dropWhile pyWs with
  | nil => rfl
  | cons d t =>
      have hd : pyWs d = false := dropWhile_head_false _ _ _ hdrop
      have hdn : d ≠ '\n' := by
        intro he
        subst he
        simp [pyWs] at hd
      have htlen : t.length ≤ f := by
        have h1 : (rest.dropWhile pyWs).length ≤ rest.length :=
          (List.dropWhile_sublist pyWs).length_le
        rw [hdrop] at h1
        simp at h1
        omega
      rw [show (d :: t).length = t.length + 1 from rfl, pysubF_cons_ne _ _ _ hdn,
        wsNLBad_cons_other d _ k hdn hd, pysubF_fuel t.length t f (le_refl _) htlen]
      exact ih t htlen

/-- The substitution never leaves three newlines inside one whitespace run:
every output blank run is at most one blank line. -/
theorem wsNLBad_pysubF : ∀ (fuel : Nat) (l : List Char), l.length ≤ fuel →
    wsNLBad (pysubF fuel l) 0 = false := by
  intro fuel
  induction fuel with
  | zero =>
      intro l h
      have : l = [] := List.eq_nil_of_length_eq_zero (by omega)
      subst this
      rfl
  | succ f ih =>
      intro l h
      cases l with
      | nil => rfl
      | cons c rest =>
          simp only [List.length_cons] at h
          have hrest : rest.length ≤ f := by omega
          by_cases hc : c = '\n'
          · subst hc
            rw [pysubF_cons_nl]
            cases han : afterLastNL (rest.takeWhile pyWs) with
            | none =>
                dsimp only
                have hTake : ∀ x ∈ rest.takeWhile pyWs, pyWs x = true ∧ x ≠ '\n' := by
                  intro x hx
                  refine ⟨List.mem_takeWhile_imp hx, ?_⟩
                  intro hxe
                  exact (afterLastNL_none _ han) (hxe ▸ hx)
                have hsplit : rest.takeWhile pyWs ++ rest.dropWhile pyWs = rest :=
                  List.takeWhile_append_dropWhile pyWs rest
                rw [wsNLBad_cons_nl]
                norm_num
                conv_lhs => rw [← hsplit]
                rw [pysubF_copy _ _ f (fun x hx => (hTake x hx).2) (by rw [hsplit]; omega)]
                rw [wsNLBad_transparent _ _ 1 hTake]
                exact wsNLBad_pysub_drop f rest 1 ih hrest
            | some tailRun =>
                dsimp only
                obtain ⟨⟨pre, hpre⟩, htnl⟩ := afterLastNL_decomp _ _ han
                have hTailWs : ∀ x ∈ tailRun, pyWs x = true ∧ x ≠ '\n' := by
                  intro x hx
                  constructor
                  · apply List.mem_takeWhile_imp (l := rest) (p := pyWs)
                    rw [hpre]
                    simp [hx]
                  · exact fun he => htnl (he ▸ hx)
                have hlt : tailRun.length < (rest.takeWhile pyWs).length :=
                  afterLastNL_length _ _ han
                have hsum : (rest.takeWhile pyWs).length + (rest.dropWhile pyWs).length
                    = rest.length := by
                  rw [← List.length_append, List.takeWhile_append_dropWhile]
                rw [wsNLBad_cons_nl, wsNLBad_cons_nl]
                norm_num
                rw [pysubF_copy tailRun _ f (fun x hx => (hTailWs x hx).2)
                  (by simp only [List.length_append]; omega)]
                rw [wsNLBad_transparent _ _ 2 hTailWs]
                exact wsNLBad_pysub_drop f rest 2 ih hrest
          · rw [pysubF_cons_ne f c rest hc]
            by_cases hw : pyWs c = true
            · have : wsNLBad (c :: pysubF f rest) 0 = wsNLBad (pysubF f rest) 0 := by
                simp [wsNLBad, hc, hw]
              rw [this]
              exact ih rest hrest
            · rw [wsNLBad_cons_other c _ 0 hc (by simpa using hw)]
              exact ih rest hrest

theorem wsNLBad_front : ∀ (a b : List Char) (k : Nat),
    wsNLBad (a ++ b) k = false → wsNLBad a k = false := by
  intro a
  induction a with
  | nil => intro b k _; rfl
  | cons c a1 ih =>
      intro b k h
      rw [List.cons_append] at h
      by_cases hc : c = '\n'
      · subst hc
        rw [wsNLBad_cons_nl] at h ⊢
        simp only [Bool.or_eq_false_iff] at h ⊢
        exact ⟨h.1, ih b (k + 1) h.2⟩
      · by_cases hw : pyWs c = true
        · have hu : ∀ x, wsNLBad (c :: x) k = wsNLBad x k := fun x => by
            simp [wsNLBad, hc, hw]
          rw [hu] at h ⊢
          exact ih b k h
        · rw [wsNLBad_cons_other c _ k hc (by simpa using hw)] at h ⊢
          exact ih b 0 h

theorem wsNLBad_suffix : ∀ (a b : List Char) (k : Nat),
    wsNLBad (a ++ b) k = false → wsNLBad b 0 = false := by
  intro a
  induction a with
  | nil => intro b k h; exact wsNLBad_mono b 0 k (by omega) h
  | cons c a1 ih =>
      intro b k h
      rw [List.cons_append] at h
      by_cases hc : c = '\n'
      · subst hc
        rw [wsNLBad_cons_nl] at h
        simp only [Bool.or_eq_false_iff] at h
        exact ih b (k + 1) h.2
      · by_cases hw : pyWs c = true
        · have hu : wsNLBad (c :: (a1 ++ b)) k = wsNLBad (a1 ++ b) k := by
            simp [wsNLBad, hc, hw]
          rw [hu] at h
          exact ih b k h
        · rw [wsNLBad_cons_other c _ k hc (by simpa using hw)] at h
          exact ih b 0 h

/-- The stripped list sits inside the original between the removed
whitespace margins. -/
theorem stripC_decomp (l : List Char) :
    l = l.takeWhile pyWs ++ stripC l ++ ((l.dropWhile pyWs).reverse.takeWhile pyWs).reverse := by
  conv_lhs => rw [← List.takeWhile_append_dropWhile pyWs l]
  rw [List.append_assoc]
  congr 1
  conv_lhs => rw [← List.reverse_reverse (l.dropWhile pyWs),
    ← List.takeWhile_append_dropWhile pyWs (l.dropWhile pyWs).reverse]
  rw [List.reverse_append]
  rfl

theorem wsNLBad_stripC (l : List Char) (h : wsNLBad l 0 = false) :
    wsNLBad (stripC l) 0 = false := by
  have hd := stripC_decomp l
  rw [hd, List.append_assoc] at h
  have h1 := wsNLBad_suffix _ _ 0 h
  exact wsNLBad_front _ _ 0 h1

theorem head?_dropWhile_false (p : Char → Bool) (l : List Char) (c : Char)
    (h : (l.dropWhile p).head? = some c) : p c = false := by
  cases hd : l.dropWhile p with
  | nil => rw [hd] at h; cases h
  | cons a t =>
      rw [hd] at h
      cases h
      exact dropWhile_head_false l _ _ hd

theorem strippedOk_stripC (l : List Char) : strippedOk (stripC l) = true := by
  unfold strippedOk
  rw [Bool.and_eq_true]
  constructor
  · cases hh : (stripC l).head? with
    | none => rfl
    | some c =>
        have hpre : stripC l ++ ((l.dropWhile pyWs).reverse.takeWhile pyWs).reverse
            = l.dropWhile pyWs := by
          conv_rhs => rw [← List.reverse_reverse (l.dropWhile pyWs),
            ← List.takeWhile_append_dropWhile pyWs (l.dropWhile pyWs).reverse]
          rw [List.reverse_append]
          rfl
        have hA : (l.dropWhile pyWs).head? = some c := by
          rw [← hpre]
          cases hs : stripC l with
          | nil => rw [hs] at hh; cases hh
          | cons x t =>
              rw [hs] at hh
              cases hh
              rfl
        simp [head?_dropWhile_false pyWs l c hA]
  · cases hh : (stripC l).getLast? with
    | none => rfl
    | some c =>
        have hh2 : ((l.dropWhile pyWs).reverse.dropWhile pyWs).reverse.getLast? = some c := hh
        rw [List.getLast?_reverse] at hh2
        simp [head?_dropWhile_false pyWs _ c hh2]

/-- C8 amended: the Markdown cleanup collapses every run of blank lines to
a single blank line (no whitespace run of the output contains three or
more newlines) and trims leading and trailing whitespace; it does not
touch horizontal whitespace runs, which is what bars the claim as
written. -/
theorem clean_markdown_spec (s : String) :
    wsNLBad (cleanMarkdownS s).toList 0 = false ∧
    strippedOk (cleanMarkdownS s).toList = true := by
  constructor
  · show wsNLBad (stripC (pysubC s.toList)) 0 = false
    exact wsNLBad_stripC _ (wsNLBad_pysubF s.toList.length s.toList (le_refl _))
  · exact strippedOk_stripC _

/-- C8 counterexample: on the input with two interior spaces the cleanup
returns the input unchanged — the run of horizontal whitespace survives —
whereas the claimed collapse to one space would give the three-character
result. -/
theorem clean_markdown_counterexample :
    cleanMarkdownS "a  b" = "a  b" ∧
    cleanMarkdownS "a  b" ≠ "a b" ∧
    hasSubC [' ', ' '] (cleanMarkdownS "a  b").toList = true := by
  exact ⟨by decide, by decide, by decide⟩

theorem noBangStr_spec (s : String) (h : noBangStr s = true) : '!' ∉ s.toList := by
  intro hm
  have := (List.all_eq_true.mp h) '!' hm
  simp at this

theorem isImgN_hasImg (n : Node) (h : isImgN n = true) : hasImg n = true := by
  cases n with
  | text s => simp [isImgN] at h
  | elem nm a cs => simp only [isImgN] at h; simp [hasImg, h]

theorem countImg_pos (n : Node) (h : isImgN n = true) : 1 ≤ countImg n := by
  cases n with
  | text s => simp [isImgN] at h
  | elem nm a cs =>
      simp only [isImgN, decide_eq_true_eq] at h
      simp [countImg, h]

mutual

theorem hasImg_remImgs : ∀ n : Node, isImgN n = false → hasImg (remImgs n) = false
  | .text _, _ => rfl
  | .elem nm a cs, h => by
      simp only [remImgs, hasImg, Bool.or_eq_false_iff]
      refine ⟨?_, hasImgL_remImgsL cs⟩
      simpa [isImgN] using h

theorem hasImgL_remImgsL : ∀ l : List Node, hasImgL (remImgsL l) = false
  | [] => rfl
  | n :: rest => by
      by_cases hn : isImgN n = true
      · simp only [remImgsL, hn, if_pos]
        exact hasImgL_remImgsL rest
      · simp only [Bool.not_eq_true] at hn
        simp only [remImgsL, hn, Bool.false_eq_true, if_false, hasImgL, Bool.or_eq_false_iff]
        exact ⟨hasImg_remImgs n hn, hasImgL_remImgsL rest⟩

end

theorem isImgN_remFirstImg (n : Node) : isImgN (remFirstImg n) = isImgN n := by
  cases n with
  | text s => rfl
  | elem nm a cs => rfl

mutual

theorem bangFree_remImgs : ∀ n : Node, bangFreeN n = true → bangFreeN (remImgs n) = true
  | .text _, h => h
  | .elem nm a cs, h => by
      simp only [bangFreeN, Bool.and_eq_true] at h
      simp only [remImgs, bangFreeN, Bool.and_eq_true]
      exact ⟨h.1, bangFreeL_remImgsL cs h.2⟩

theorem bangFreeL_remImgsL : ∀ l : List Node, bangFreeL l = true → bangFreeL (remImgsL l) = true
  | [], h => h
  | n :: rest, h => by
      simp only [bangFreeL, Bool.and_eq_true] at h
      by_cases hn : isImgN n = true
      · have he : remImgsL (n :: rest) = remImgsL rest := by
          simp [remImgsL, hn]
        rw [he]
        exact bangFreeL_remImgsL rest h.2
      · have he : remImgsL (n :: rest) = remImgs n :: remImgsL rest := by
          simp [remImgsL, hn]
        rw [he]
        simp only [bangFreeL, Bool.and_eq_true]
        exact ⟨bangFree_remImgs n h.1, bangFreeL_remImgsL rest h.2⟩

end

mutual

theorem bangFree_remFirstImg : ∀ n : Node, bangFreeN n = true → bangFreeN (remFirstImg n) = true
  | .text _, h => h
  | .elem nm a cs, h => by
      simp only [bangFreeN, Bool.and_eq_true] at h
      simp only [remFirstImg, bangFreeN, Bool.and_eq_true]
      exact ⟨h.1, bangFreeL_remFirstImgL cs h.2⟩

theorem bangFreeL_remFirstImgL : ∀ l : List Node,
    bangFreeL l = true → bangFreeL (remFirstImgL l) = true
  | [], h => h
  | n :: rest, h => by
      simp only [bangFreeL, Bool.and_eq_true] at h
      by_cases hn : isImgN n = true
      · have he : remFirstImgL (n :: rest) = rest := by
          simp [remFirstImgL, hn]
        rw [he]
        exact h.2
      · by_cases hi : hasImg n = true
        · have he : remFirstImgL (n :: rest) = remFirstImg n :: rest := by
            simp [remFirstImgL, hn, hi]
          rw [he]
          simp only [bangFreeL, Bool.and_eq_true]
          exact ⟨bangFree_remFirstImg n h.1, h.2⟩
        · have he : remFirstImgL (n :: rest) = n :: remFirstImgL rest := by
            simp [remFirstImgL, hn, hi]
          rw [he]
          simp only [bangFreeL, Bool.and_eq_true]
          exact ⟨h.1, bangFreeL_remFirstImgL rest h.2⟩

end

mutual

theorem countImg_remFirst : ∀ n : Node, isImgN n = false → hasImg n = true →
    countImg (remFirstImg n) < countImg n
  | .text _, _, hi => by simp [hasImg] at hi
  | .elem nm a cs, hn, hi => by
      simp only [isImgN, decide_eq_false_iff_not] at hn
      simp only [hasImg, Bool.or_eq_true, decide_eq_true_eq] at hi
      have hcs : hasImgL cs = true := by
        rcases hi with hi | hi
        · exact absurd hi hn
        · exact hi
      simp only [remFirstImg, countImg]
      have := countImgL_remFirstL cs hcs
      omega

theorem countImgL_remFirstL : ∀ l : List Node, hasImgL l = true →
    countImgL (remFirstImgL l) < countImgL l
  | [], h => by simp [hasImgL] at h
  | n :: rest, h => by
      simp only [hasImgL, Bool.or_eq_true] at h
      by_cases hn : isImgN n = true
      · have he : remFirstImgL (n :: rest) = rest := by
          simp [remFirstImgL, hn]
        rw [he]
        simp only [countImgL]
        have := countImg_pos n hn
        omega
      · by_cases hi : hasImg n = true
        · have he : remFirstImgL (n :: rest) = remFirstImg n :: rest := by
            simp [remFirstImgL, hn, hi]
          rw [he]
          simp only [countImgL]
          have h1 : isImgN n = false := by
            simp only [Bool.not_eq_true] at hn
            exact hn
          have := countImg_remFirst n h1 hi
          omega
        · have he : remFirstImgL (n :: rest) = n :: remFirstImgL rest := by
            simp [remFirstImgL, hn, hi]
          rw [he]
          simp only [countImgL]
          have hrest : hasImgL rest = true := by
            rcases h with h | h
            · rw [h] at hi
              exact absurd rfl hi
            · exact h
          have := countImgL_remFirstL rest hrest
          omega

end

mutual

theorem firstImgSib_hasImg : ∀ (n : Node) (r : Node × List Char),
    firstImgSib n = some r → hasImg n = true
  | .text _, r, h => by simp [firstImgSib] at h
  | .elem nm a cs, r, h => by
      simp only [firstImgSib] at h
      simp only [hasImg, Bool.or_eq_true]
      exact Or.inr (firstImgSibL_hasImgL cs [] r h)

theorem firstImgSibL_hasImgL : ∀ (l : List Node) (acc : List Char) (r : Node × List Char),
    firstImgSibL l acc = some r → hasImgL l = true
  | [], acc, r, h => by simp [firstImgSibL] at h
  | n :: rest, acc, r, h => by
      simp only [firstImgSibL] at h
      simp only [hasImgL, Bool.or_eq_true]
      by_cases hn : isImgN n = true
      · exact Or.inl (isImgN_hasImg n hn)
      · rw [if_neg (by simpa using hn)] at h
        cases hf : firstImgSib n with
        | some r2 =>
            exact Or.inl (firstImgSib_hasImg n r2 hf)
        | none =>
            rw [hf] at h
            exact Or.inr (firstImgSibL_hasImgL rest _ r h)

end

theorem escTextC_mem (c : Char) : ∀ l : List Char, c ∈ escTextC l → c = '\\' ∨ c ∈ l := by
  intro l
  induction l with
  | nil => intro h; simp [escTextC] at h
  | cons x t ih =>
      intro h
      have hx : escTextC (x :: t) = escC x ++ escTextC t := by
        simp [escTextC]
      rw [hx, List.mem_append] at h
      rcases h with h | h
      · unfold escC at h
        split at h
        · simp only [List.mem_cons, List.not_mem_nil, or_false] at h
          rcases h with h | h
          · exact Or.inl h
          · exact Or.inr (by simp [h])
        · simp only [List.mem_singleton] at h
          exact Or.inr (by simp [h])
      · rcases ih h with h | h
        · exact Or.inl h
        · exact Or.inr (by simp [h])

theorem getAttr_noBang (attrs : List (String × String)) (k : String)
    (hall : attrs.all (fun p => noBangStr p.2) = true) (v : String)
    (hv : getAttr attrs k = some v) : '!' ∉ v.toList := by
  unfold getAttr at hv
  cases hf : attrs.find? (fun p => decide (p.1 = k)) with
  | none => rw [hf] at hv; cases hv
  | some p =>
      rw [hf] at hv
      simp only [Option.map_some', Option.some.injEq] at hv
      have hp : p ∈ attrs := List.mem_of_find?_eq_some hf
      have hcl := (List.all_eq_true.mp hall) p hp
      rw [← hv]
      exact noBangStr_spec p.2 hcl

theorem getAttrD_noBang (attrs : List (String × String)) (k : String)
    (hall : attrs.all (fun p => noBangStr p.2) = true) :
    '!' ∉ (getAttrD attrs k "").toList := by
  unfold getAttrD
  cases hf : getAttr attrs k with
  | none => simp
  | some v =>
      simp only [Option.getD_some]
      exact getAttr_noBang attrs k hall v hf

mutual

/-- With every img element removed and no exclamation mark in any text or
attribute value, the rendered Markdown contains no exclamation mark at
all — in particular no image syntax. -/
theorem mdC_noBang : ∀ n : Node, bangFreeN n = true → hasImg n = false → '!' ∉ mdC n
  | .text s, hb, _ => by
      intro hmem
      rcases escTextC_mem '!' s.toList hmem with h | h
      · simp at h
      · exact noBangStr_spec s hb h
  | .elem nm attrs cs, hb, hi => by
      intro hmem
      simp only [bangFreeN, Bool.and_eq_true] at hb
      simp only [hasImg, Bool.or_eq_false_iff, decide_eq_false_iff_not] at hi
      have hinner : '!' ∉ mdCL cs := mdCL_noBang cs hb.2 hi.2
      simp only [mdC] at hmem
      rw [if_neg hi.1] at hmem
      by_cases ha : nm = "a"
      · rw [if_pos ha] at hmem
        simp only [List.mem_append] at hmem
        rcases hmem with ((((h | h) | h) | h) | h)
        · simp at h
        · exact hinner h
        · simp at h
        · exact getAttrD_noBang attrs "href" hb.1 h
        · simp at h
      · rw [if_neg ha] at hmem
        by_cases hbr : nm = "br"
        · rw [if_pos hbr] at hmem
          simp at hmem
        · rw [if_neg hbr] at hmem
          by_cases hpd : nm = "p" ∨ nm = "div"
          · rw [if_pos hpd] at hmem
            simp only [List.mem_append] at hmem
            rcases hmem with h | h
            · exact hinner h
            · simp at h
          · rw [if_neg hpd] at hmem
            cases hh : headerLevel nm with
            | some k =>
                rw [hh] at hmem
                dsimp only at hmem
                simp only [List.mem_append] at hmem
                rcases hmem with ((h | h) | h) | h
                · have := List.eq_of_mem_replicate h
                  simp at this
                · simp at h
                · exact hinner h
                · simp at h
            | none =>
                rw [hh] at hmem
                dsimp only at hmem
                by_cases hst : nm = "strong" ∨ nm = "b"
                · rw [if_pos hst] at hmem
                  simp only [List.mem_append] at hmem
                  rcases hmem with (h | h) | h
                  · simp at h
                  · exact hinner h
                  · simp at h
                · rw [if_neg hst] at hmem
                  by_cases hem : nm = "em" ∨ nm = "i"
                  · rw [if_pos hem] at hmem
                    simp only [List.mem_append] at hmem
                    rcases hmem with (h | h) | h
                    · simp at h
                    · exact hinner h
                    · simp at h
                  · rw [if_neg hem] at hmem
                    by_cases hli : nm = "li"
                    · rw [if_pos hli] at hmem
                      simp only [List.mem_append] at hmem
                      rcases hmem with (h | h) | h
                      · simp at h
                      · exact hinner h
                      · simp at h
                    · rw [if_neg hli] at hmem
                      by_cases hul : nm = "ul" ∨ nm = "ol"
                      · rw [if_pos hul] at hmem
                        simp only [List.mem_append] at hmem
                        rcases hmem with h | h
                        · exact hinner h
                        · simp at h
                      · rw [if_neg hul] at hmem
                        exact hinner hmem

theorem mdCL_noBang : ∀ l : List Node, bangFreeL l = true → hasImgL l = false → '!' ∉ mdCL l
  | [], _, _ => by simp [mdCL]
  | n :: rest, hb, hi => by
      intro hmem
      simp only [bangFreeL, Bool.and_eq_true] at hb
      simp only [hasImgL, Bool.or_eq_false_iff] at hi
      simp only [mdCL] at hmem
      rcases List.mem_append.mp hmem with h | h
      · exact mdC_noBang n hb.1 hi.1 h
      · exact mdCL_noBang rest hb.2 hi.2 h

end

/-- The substitution only emits newlines and characters of its input. -/
theorem pysubF_mem : ∀ (fuel : Nat) (l : List Char) (c : Char),
    c ∈ pysubF fuel l → c = '\n' ∨ c ∈ l := by
  intro fuel
  induction fuel with
  | zero => intro l c h; exact Or.inr h
  | succ f ih =>
      intro l c h
      cases l with
      | nil => simp [pysubF] at h
      | cons ch rest =>
          by_cases hc : ch = '\n'
          · subst hc
            rw [pysubF_cons_nl] at h
            cases han : afterLastNL (rest.takeWhile pyWs) with
            | none =>
                rw [han] at h
                dsimp only at h
                rcases List.mem_cons.mp h with h | h
                · exact Or.inl h
                · rcases ih rest c h with h | h
                  · exact Or.inl h
                  · exact Or.inr (by simp [h])
            | some tailRun =>
                rw [han] at h
                dsimp only at h
                rcases List.mem_cons.mp h with h | h
                · exact Or.inl h
                · rcases List.mem_cons.mp h with h | h
                  · exact Or.inl h
                  · rcases ih _ c h with h | h
                    · exact Or.inl h
                    · rcases List.mem_append.mp h with h | h
                      · obtain ⟨⟨pre, hpre⟩, _⟩ := afterLastNL_decomp _ _ han
                        have h2 : c ∈ rest.takeWhile pyWs := by
                          rw [hpre]
                          simp [h]
                        have h3 : c ∈ rest := (List.takeWhile_sublist pyWs).subset h2
                        exact Or.inr (by simp [h3])
                      · have h3 : c ∈ rest := (List.dropWhile_sublist pyWs).subset h
                        exact Or.inr (by simp [h3])
          · rw [pysubF_cons_ne f ch rest hc] at h
            rcases List.mem_cons.mp h with h | h
            · exact Or.inr (by simp [h])
            · rcases ih rest c h with h | h
              · exact Or.inl h
              · exact Or.inr (by simp [h])

theorem stripC_mem (l : List Char) (c : Char) (h : c ∈ stripC l) : c ∈ l := by
  unfold stripC at h
  rw [List.mem_reverse] at h
  have h2 := (List.dropWhile_sublist pyWs).subset h
  rw [List.mem_reverse] at h2
  exact (List.dropWhile_sublist pyWs).subset h2

/-- A pattern starting with a character absent from the haystack never
occurs as a substring. -/
theorem hasSubC_head_not_mem (p : List Char) (c0 : Char) :
    ∀ l : List Char, c0 ∉ l → hasSubC (c0 :: p) l = false := by
  intro l
  induction l with
  | nil => intro _; rfl
  | cons x rest ih =>
      intro hn
      have hx : c0 ≠ x := fun he => hn (by simp [he])
      simp only [hasSubC, isPrefixC, Bool.or_eq_false_iff]
      constructor
      · simp only [Bool.and_eq_false_iff, decide_eq_false_iff_not]
        exact Or.inl hx
      · exact ih fun hm => hn (by simp [hm])

theorem extractLogo_cases (c : Node) :
    (extractLogo c).1 = c ∨ (extractLogo c).1 = remFirstImg c := by
  unfold extractLogo
  cases firstImgSib c with
  | none => exact Or.inl rfl
  | some r =>
      dsimp only
      split
      · split
        · exact Or.inr rfl
        · exact Or.inl rfl
      · exact Or.inl rfl

theorem extractLogo_root (c : Node) (h : isImgN c = false) :
    isImgN (extractLogo c).1 = false := by
  rcases extractLogo_cases c with he | he
  · rw [he]; exact h
  · rw [he, isImgN_remFirstImg]; exact h

theorem extractLogo_bangFree (c : Node) (h : bangFreeN c = true) :
    bangFreeN (extractLogo c).1 = true := by
  rcases extractLogo_cases c with he | he
  · rw [he]; exact h
  · rw [he]; exact bangFree_remFirstImg c h

/-- C6 amended: from the selected content container (never itself an
image), (i) the tree handed to the Markdown converter holds no image
element at all — every remaining image is stripped before conversion;
(ii) the guarantee that the returned Markdown has no occurrence of the
image-syntax opener holds for containers whose text nodes and attribute
values carry no exclamation mark, the most the stripping can ensure, since
the converter never escapes that character; (iii) when the first image of
the container is preceded by sibling text that strips to under 50
characters and carries a non-empty src, that src is returned as the logo
URL and the image is removed from the container. -/
theorem content_extractor_spec (c : Node) (hroot : isImgN c = false) :
    hasImg (remImgs (extractLogo c).1) = false ∧
    (bangFreeN c = true →
      hasSubC ['!', '['] (extractFromContainer c).1.toList = false) ∧
    (∀ img sib u, firstImgSib c = some (img, sib) → (stripC sib).length < 50 →
      nodeAttr img "src" = some u → u ≠ "" →
      (extractFromContainer c).2 = some u ∧ countImg (extractLogo c).1 < countImg c) := by
  have himgfree : hasImg (remImgs (extractLogo c).1) = false :=
    hasImg_remImgs _ (extractLogo_root c hroot)
  refine ⟨himgfree, ?_, ?_⟩
  · intro hbf
    have hb2 : bangFreeN (remImgs (extractLogo c).1) = true :=
      bangFree_remImgs _ (extractLogo_bangFree c hbf)
    have hmd : '!' ∉ mdC (remImgs (extractLogo c).1) := mdC_noBang _ hb2 himgfree
    have hclean : '!' ∉ cleanMarkdownC (mdC (remImgs (extractLogo c).1)) := by
      intro hmem
      have h1 := stripC_mem _ _ hmem
      rcases pysubF_mem _ _ _ h1 with h | h
      · simp at h
      · exact hmd h
    exact hasSubC_head_not_mem ['['] '!' _ hclean
  · intro img sib u hfi hlen hsrc hne
    have hext : extractLogo c = (remFirstImg c, some u) := by
      unfold extractLogo
      rw [hfi]
      dsimp only
      rw [if_pos hlen, hsrc]
      rw [if_pos (by simpa [pyTruthyOS] using hne)]
    constructor
    · show (extractLogo c).2 = some u
      rw [hext]
    · rw [hext]
      exact countImg_remFirst c hroot (firstImgSib_hasImg c _ hfi)

/-- Witness for C6: the leading image of the example container becomes the
logo URL, an image is removed from the container, the remaining tree is
image-free, and the produced Markdown carries no image syntax. -/
theorem content_extractor_spec_witness :
    (extractFromContainer containerW6).2 = some "http://logo.png" ∧
    countImg (extractLogo containerW6).1 < countImg containerW6 ∧
    hasSubC ['!', '['] (extractFromContainer containerW6).1.toList = false ∧
    hasImg (remImgs (extractLogo containerW6).1) = false := by
  have h := content_extractor_spec containerW6 (by decide)
  have h3 := h.2.2 (.elem "img" [("src", "http://logo.png")] []) [] "http://logo.png"
    rfl (by decide) rfl (by decide)
  exact ⟨h3.1, h3.2, h.2.1 (by decide), h.1⟩

/-- C6 counterexample: an image-free container of ordinary content — text
ending in an exclamation mark directly followed by a link — converts to
Markdown that contains the full image syntax bang-bracket Apply
bracket-paren url: stripping images does not keep image syntax out of the
output for every HTML input, because the converter escapes brackets in
text but never the exclamation mark, and adjacent text and link markup can
spell the syntax out. -/
theorem content_extractor_counterexample :
    (extractFromContainer containerC6cex).1 = "We are hiring![Apply](http://x/apply)" ∧
    hasSubC ['!', '['] (extractFromContainer containerC6cex).1.toList = true ∧
    hasSubC ("![Apply](http://x/apply)".toList)
      (extractFromContainer containerC6cex).1.toList = true := by
  exact ⟨by decide, by decide, by decide⟩
